import Mathlib

/-!
Line editor (`src/index.js`): shallow embedding and verified properties.

The program is a canvas line editor made of two JavaScript classes, `Line`
and `App`.

Modelling conventions.

* Arithmetic comes in two layers.  The classes `Line` and `App` are embedded
  over exact arithmetic: numbers are rationals `ℚ` (every finite double is a
  rational) and `+`, `-`, `*`, `/`, `Math.sqrt`, `Math.hypot` are taken
  without rounding.  The state machine of `App`, which never looks at the
  value of a number except through `contains`, is verified on this layer.
  The second layer, `Dbl` and `DLine`, computes `contains` and `move` in IEEE
  754 double arithmetic as the program does; it shows where the statements
  about distances that hold over exact arithmetic fail in the program.
* In the exact layer `Math.sqrt` and `Math.hypot` only occur on the left of a
  comparison with a positive constant.  The embedding keeps the squared
  quantity, which is rational, and compares it with the squared constant; the
  lemmas `abs_div_sqrt_lt_iff` and `sqrt_hypotSq_lt_iff` show over `ℝ` that
  this is the same comparison.
* `0 / 0` is `NaN` in JavaScript and every comparison with `NaN` is false;
  in the exact layer the quotient is an `Option`, with `none` standing for
  `NaN`.
* Objects are mutable and shared by reference.  `App.lines` is only ever
  appended to, so a reference to a `Line` is modelled by its position in
  `App.lines`.
* The 2D context is modelled by the log of the commands sent to it.
* A handler that would throw a `TypeError` returns `none`.
-/

namespace LineEditor

/-! ## class Line -/

/-- Fields of the JS class `Line`. -/
structure Line where
  startX : ℚ
  startY : ℚ
  endX : ℚ
  endY : ℚ
  isSelected : Bool
  isRotating : Bool
  deriving DecidableEq

/-- The `Line` constructor: both flags start out false. -/
def Line.new (startX startY endX endY : ℚ) : Line :=
  { startX := startX, startY := startY, endX := endX, endY := endY,
    isSelected := false, isRotating := false }

/-- Commands received by the canvas 2D context. -/
inductive CanvasCmd where
  | clearRect (x y w h : ℚ)
  | beginPath
  | moveTo (x y : ℚ)
  | lineTo (x y : ℚ)
  | stroke
  deriving DecidableEq

/-- The method `Line.draw(ctx)`: four commands appended to the context log. -/
def Line.draw (l : Line) (ctx : List CanvasCmd) : List CanvasCmd :=
  ctx ++ [CanvasCmd.beginPath, CanvasCmd.moveTo l.startX l.startY,
    CanvasCmd.lineTo l.endX l.endY, CanvasCmd.stroke]

/-- Argument of `Math.abs` in `Line.contains`. -/
def Line.crossTerm (l : Line) (x y : ℚ) : ℚ :=
  (l.endY - l.startY) * x - (l.endX - l.startX) * y + l.endX * l.startY - l.endY * l.startX

/-- Argument of `Math.sqrt` in `Line.contains`. -/
def Line.lengthSq (l : Line) : ℚ :=
  (l.endY - l.startY) ^ 2 + (l.endX - l.startX) ^ 2

/-- Square of the JS value `distance` of `Line.contains`,
`Math.abs(crossTerm) / Math.sqrt(lengthSq)`.  When `lengthSq` is zero the
numerator is zero as well (`crossTerm_eq_zero_of_lengthSq`), the JS quotient is
`0 / 0 = NaN`, and the result is `none`. -/
def Line.distanceSq (l : Line) (x y : ℚ) : Option ℚ :=
  if l.lengthSq = 0 then none else some (l.crossTerm x y ^ 2 / l.lengthSq)

/-- Square of `Math.hypot(a, b)`. -/
def hypotSq (a b : ℚ) : ℚ := a ^ 2 + b ^ 2

/-- The method `Line.contains(x, y)` over exact arithmetic; `null` is `none`.
The test `distance < 5` is false for `NaN`; `Math.hypot(..) < 10` is taken on
squares.  The same method with every operation rounded to a double is
`DLine.contains`. -/
def Line.contains (l : Line) (x y : ℚ) : Option String :=
  match l.distanceSq x y with
  | none => none
  | some dSq =>
    if dSq < 25 then
      if hypotSq (l.startX - x) (l.startY - y) < 100 then some "start"
      else if hypotSq (l.endX - x) (l.endY - y) < 100 then some "end"
      else none
    else none

/-- The method `Line.rotate(newEndX, newEndY)`. -/
def Line.rotate (l : Line) (newEndX newEndY : ℚ) : Line :=
  { l with endX := newEndX, endY := newEndY }

/-- The method `Line.move(dx, dy)` over exact arithmetic; with each `+=`
rounded to a double it is `DLine.move`. -/
def Line.move (l : Line) (dx dy : ℚ) : Line :=
  { l with startX := l.startX + dx, endX := l.endX + dx,
           startY := l.startY + dy, endY := l.endY + dy }

/-! ## class App -/

/-- Fields of the JS class `App`.  `canvasWidth`, `canvasHeight` are
`this.canvas.width/height`; `ctx` is the log of `this.ctx`; `currentLine` is a
position in `lines` (`none` is `null`); `lastPointerPos` is `none` when it is
`undefined` or `null`. -/
structure App where
  canvasWidth : ℚ
  canvasHeight : ℚ
  ctx : List CanvasCmd
  lines : List Line
  currentLine : Option Nat
  isDrawing : Bool
  isRotating : Bool
  isMoving : Bool
  lastPointerPos : Option (ℚ × ℚ)
  deriving DecidableEq

/-- The `App` constructor, for a canvas of the given size with a fresh
context. -/
def App.new (canvasWidth canvasHeight : ℚ) : App :=
  { canvasWidth := canvasWidth, canvasHeight := canvasHeight, ctx := [],
    lines := [], currentLine := none, isDrawing := false, isRotating := false,
    isMoving := false, lastPointerPos := none }

/-- The selection loop of `onPointerDown`, run on the lines from position `i`
on.  Returns the lines with their new `isSelected` and the final value of
`lineSelected`: the position of the referenced line and the line itself. -/
def selectLoop (x y : ℚ) :
    List Line → Nat → Option (Nat × Line) → List Line × Option (Nat × Line)
  | [], _, lineSelected => ([], lineSelected)
  | line :: rest, i, lineSelected =>
    if (line.contains x y).isSome then
      let line1 := { line with isSelected := true }
      let r := selectLoop x y rest (i + 1) (some (i, line1))
      (line1 :: r.1, r.2)
    else
      let line1 := { line with isSelected := false }
      let r := selectLoop x y rest (i + 1) lineSelected
      (line1 :: r.1, r.2)

/-- The handler `App.onPointerDown` at offset `(x, y)`. -/
def App.onPointerDown (app : App) (x y : ℚ) : App :=
  let r := selectLoop x y app.lines 0 none
  let app1 := { app with lines := r.1 }
  match r.2 with
  | some (_, lineSelected) =>
    let positionOnLine := lineSelected.contains x y
    let app2 :=
      if positionOnLine = some "start" then
        { app1 with isMoving := true, isRotating := false }
      else if positionOnLine = some "end" then
        { app1 with isMoving := false, isRotating := true }
      else app1
    { app2 with lastPointerPos := some (x, y) }
  | none =>
    { app1 with isDrawing := true, currentLine := some app1.lines.length,
                lines := app1.lines ++ [Line.new x y x y] }

/-- The method `App.drawCanvas`: one `clearRect`, then every line drawn in
order. -/
def App.drawCanvas (app : App) : App :=
  let cleared := app.ctx ++ [CanvasCmd.clearRect 0 0 app.canvasWidth app.canvasHeight]
  { app with ctx := app.lines.foldl (fun c l => l.draw c) cleared }

/-- The loops `for (let line of this.lines) { if (line.isSelected) { ...; break } }`
of `onPointerMove`: `f` is applied to the first selected line; `none` when no
line is selected and the loop body never runs. -/
def updateFirstSelected (f : Line → Line) : List Line → Option (List Line)
  | [] => none
  | line :: rest =>
    if line.isSelected then some (f line :: rest)
    else (updateFirstSelected f rest).map (fun r => line :: r)

/-- Assignment through the reference `this.currentLine`, at position `i`. -/
def setEndAt (x y : ℚ) : List Line → Nat → List Line
  | [], _ => []
  | line :: rest, 0 => { line with endX := x, endY := y } :: rest
  | line :: rest, i + 1 => line :: setEndAt x y rest i

/-- The handler `App.onPointerMove` at offset `(x, y)`; `none` when
`this.currentLine` is `null` in the drawing branch (a `TypeError`). -/
def App.onPointerMove (app : App) (x y : ℚ) : Option App :=
  if app.isDrawing then
    match app.currentLine with
    | none => none
    | some i => some ({ app with lines := setEndAt x y app.lines i }).drawCanvas
  else
    match app.isMoving, app.lastPointerPos with
    | true, some (lastX, lastY) =>
      let dx := x - lastX
      let dy := y - lastY
      match updateFirstSelected (fun l => l.move dx dy) app.lines with
      | some ls =>
        some { ({ app with lines := ls }).drawCanvas with lastPointerPos := some (x, y) }
      | none => some app
    | _, _ =>
      if app.isRotating then
        match updateFirstSelected (fun l => l.rotate x y) app.lines with
        | some ls => some ({ app with lines := ls }).drawCanvas
        | none => some app
      else some app

/-- The handler `App.onPointerUp`. -/
def App.onPointerUp (app : App) : App :=
  { app with isDrawing := false, isRotating := false, isMoving := false,
             lastPointerPos := none }

/-- Pointer events delivered to the canvas. -/
inductive Event where
  | pointerDown (x y : ℚ)
  | pointerMove (x y : ℚ)
  | pointerUp
  deriving DecidableEq

/-- One event dispatched to its handler.  A handler that throws has not yet
changed anything, so the state is kept. -/
def App.handle (app : App) : Event → App
  | Event.pointerDown x y => app.onPointerDown x y
  | Event.pointerMove x y => (app.onPointerMove x y).getD app
  | Event.pointerUp => app.onPointerUp

/-- A sequence of events dispatched in order. -/
def App.run (app : App) (events : List Event) : App :=
  events.foldl App.handle app

/-- States reached from a freshly constructed `App` by some event sequence. -/
def Reachable (s : App) : Prop :=
  ∃ (w h : ℚ) (events : List Event), (App.new w h).run events = s

/-- Number of lines with `isSelected == true`. -/
def selectedCount (ls : List Line) : Nat :=
  (ls.filter (fun l => l.isSelected)).length

/-- What one iteration of the selection loop of `onPointerDown` does to a
line: `isSelected` becomes the truthiness of `contains(x, y)`. -/
def markSelected (x y : ℚ) (l : Line) : Line :=
  { l with isSelected := (l.contains x y).isSome }

/-- All three mode flags are false. -/
def App.Idle (app : App) : Prop :=
  app.isDrawing = false ∧ app.isMoving = false ∧ app.isRotating = false

/-- A gesture sequence on a fresh canvas: the line `(0,0)-(100,0)` is drawn,
then the line `(0,100)-(0,0)`, whose end handle lies on the start handle of the
first, and the pointer is pressed at `(0,0)`. -/
def twoHandlesEvents : List Event :=
  [Event.pointerDown 0 0, Event.pointerMove 100 0, Event.pointerUp,
   Event.pointerDown 0 100, Event.pointerMove 0 0, Event.pointerUp,
   Event.pointerDown 0 0]

/-- What the selection loop does to a line that is not hit. -/
def unselect (l : Line) : Line := { l with isSelected := false }

/-- The state reached on a fresh canvas after drawing the line from `(0,0)`
to `(ex, ey)` and releasing the pointer. -/
def oneLineApp (ex ey : ℚ) : App :=
  (App.new 300 150).run [Event.pointerDown 0 0, Event.pointerMove ex ey, Event.pointerUp]

/-- A gesture sequence on a fresh canvas: the line `(0,0)-(100,0)` is being
drawn when a second `pointerdown` arrives at `(0,0)` with no `pointerup` in
between (the pointer was released outside the canvas, or a second pointer
touched it). -/
def pressTwiceEvents : List Event :=
  [Event.pointerDown 0 0, Event.pointerMove 100 0, Event.pointerDown 0 0]

/-- Invariant of the reachable states: `currentLine` is `null` when there is
no line and refers to the last line otherwise; while drawing there is a line;
and when `isDrawing` is the only flag set, no line is selected. -/
def App.Inv (s : App) : Prop :=
  (s.currentLine = if s.lines = [] then none else some (s.lines.length - 1)) ∧
  (s.isDrawing = true → s.lines ≠ []) ∧
  (s.isDrawing = true → s.isMoving = false → s.isRotating = false →
    ∀ l ∈ s.lines, l.isSelected = false)

/-- A run of `onPointerMove` calls at the given offsets, in order; `none` as
soon as one of them throws. -/
def App.onPointerMoves (app : App) : List (ℚ × ℚ) → Option App
  | [] => some app
  | (x, y) :: rest => (app.onPointerMove x y).bind (fun a => a.onPointerMoves rest)

/-- The four commands of one stroke from the start to the end of `l`, as the
redraw contract words it. -/
def strokeCmds (l : Line) : List CanvasCmd :=
  [CanvasCmd.beginPath, CanvasCmd.moveTo l.startX l.startY,
    CanvasCmd.lineTo l.endX l.endY, CanvasCmd.stroke]

/-- The redraw the contract asks for in state `s`: one full-surface clear,
then one stroke per line in collection order. -/
def expectedRedraw (s : App) : List CanvasCmd :=
  CanvasCmd.clearRect 0 0 s.canvasWidth s.canvasHeight :: s.lines.flatMap strokeCmds

/-- A state outside the reachable ones: Moving, with a stored pointer
position, while the only line is not selected. -/
def strayMovingApp : App :=
  { oneLineApp 100 0 with isMoving := true, lastPointerPos := some (0, 0) }

/-! ## Double-precision arithmetic

The definitions above take `+`, `-`, `*`, `/`, `Math.sqrt` and `Math.hypot`
without rounding.  The definitions of this section model the same operations
on IEEE 754 binary64 values, rounding to nearest with ties to even, so that
the results of `Line.contains` and `Line.move` can also be computed as the
program computes them.  A finite double is kept as the rational number it
denotes.  The two zeros are not told apart: in `contains` the only divisor is
a square root of a sum of squares, which is never `-0`, and comparisons do not
see the sign of zero.  `Math.sqrt`, `Math.hypot` and `x ** 2`, whose accuracy
ECMAScript leaves to the implementation, are taken as correctly rounded. -/

/-- A JavaScript Number: a finite double (the rational it denotes), an
infinity with its sign, or `NaN`. -/
inductive Dbl where
  | fin (q : ℚ)
  | inf (neg : Bool)
  | nan
  deriving DecidableEq

/-- The power `2 ^ k` for an integer `k`. -/
def pow2 (k : ℤ) : ℚ :=
  if 0 ≤ k then ((2 ^ k.toNat : ℕ) : ℚ) else 1 / ((2 ^ (-k).toNat : ℕ) : ℚ)

/-- The position of the leading bit of `n`, by halving; `fuel` bounds the
number of halvings and `n` itself is always enough. -/
def log2Nat : ℕ → ℕ → ℕ
  | 0, _ => 0
  | fuel + 1, n => if n < 2 then 0 else log2Nat fuel (n / 2) + 1

/-- The integer `e` with `2 ^ e ≤ a < 2 ^ (e + 1)`, for a positive `a`. -/
def floorLog2 (a : ℚ) : ℤ :=
  let k : ℤ := (log2Nat a.num.natAbs a.num.natAbs : ℤ) - (log2Nat a.den a.den : ℤ)
  if pow2 k ≤ a then k else k - 1

/-- Bitwise integer square root: the bits `b`, `b - 1`, ..., `0` are tried in
turn on top of the accumulated root `r`. -/
def isqrtBits (n : ℕ) : ℕ → ℕ → ℕ
  | 0, r => if (r + 1) * (r + 1) ≤ n then r + 1 else r
  | b + 1, r =>
    if (r + 2 ^ (b + 1)) * (r + 2 ^ (b + 1)) ≤ n then isqrtBits n b (r + 2 ^ (b + 1))
    else isqrtBits n b r

/-- The largest `r` with `r * r ≤ n`. -/
def isqrt (n : ℕ) : ℕ := isqrtBits n (log2Nat n n / 2 + 1) 0

/-- The double of magnitude `n * quantum`, or `(n + 1) * quantum` when the
discarded part rounds up; a magnitude of `2 ^ 1024` or more overflows to an
infinity. -/
def Dbl.pack (neg : Bool) (n : ℕ) (up : Bool) (quantum : ℚ) : Dbl :=
  let v : ℚ := ((if up then n + 1 else n : ℕ) : ℚ) * quantum
  if pow2 1024 ≤ v then Dbl.inf neg else Dbl.fin (if neg then -v else v)

/-- Rounding of an exact result to the nearest double, ties to even: 53
significant bits in the binade of the value, the quantum never below
`2 ^ (-1074)` (subnormals). -/
def Dbl.round (q : ℚ) : Dbl :=
  if q = 0 then Dbl.fin 0
  else
    let a : ℚ := if q < 0 then -q else q
    let e : ℤ := max (floorLog2 a) (-1022)
    let quantum : ℚ := pow2 (e - 52)
    let t : ℚ := a / quantum
    let n : ℕ := ⌊t⌋.toNat
    let frac : ℚ := t - (n : ℚ)
    Dbl.pack (decide (q < 0)) n
      (decide (1 / 2 < frac) || (decide (frac = 1 / 2) && n % 2 == 1)) quantum

/-- The double nearest to the square root of a non-negative rational, ties to
even. -/
def Dbl.roundSqrt (q : ℚ) : Dbl :=
  if q ≤ 0 then Dbl.fin 0
  else
    let e : ℤ := max (floorLog2 q / 2) (-1022)
    let quantum : ℚ := pow2 (e - 52)
    let s : ℚ := q / (quantum * quantum)
    let n : ℕ := isqrt ⌊s⌋.toNat
    let half : ℚ := (((2 * n + 1) * (2 * n + 1) : ℕ) : ℚ) / 4
    Dbl.pack false n (decide (half < s) || (decide (s = half) && n % 2 == 1)) quantum

/-- Unary minus. -/
def Dbl.neg : Dbl → Dbl
  | Dbl.fin q => Dbl.fin (-q)
  | Dbl.inf s => Dbl.inf (!s)
  | Dbl.nan => Dbl.nan

/-- The operator `+` on Numbers. -/
def Dbl.add : Dbl → Dbl → Dbl
  | Dbl.nan, _ => Dbl.nan
  | _, Dbl.nan => Dbl.nan
  | Dbl.inf s, Dbl.inf t => if s = t then Dbl.inf s else Dbl.nan
  | Dbl.inf s, Dbl.fin _ => Dbl.inf s
  | Dbl.fin _, Dbl.inf t => Dbl.inf t
  | Dbl.fin a, Dbl.fin b => Dbl.round (a + b)

/-- The operator `-` on Numbers. -/
def Dbl.sub (a b : Dbl) : Dbl := a.add b.neg

/-- The operator `*` on Numbers. -/
def Dbl.mul : Dbl → Dbl → Dbl
  | Dbl.nan, _ => Dbl.nan
  | _, Dbl.nan => Dbl.nan
  | Dbl.inf s, Dbl.inf t => Dbl.inf (s != t)
  | Dbl.inf s, Dbl.fin b => if b = 0 then Dbl.nan else Dbl.inf (s != decide (b < 0))
  | Dbl.fin a, Dbl.inf t => if a = 0 then Dbl.nan else Dbl.inf (decide (a < 0) != t)
  | Dbl.fin a, Dbl.fin b => Dbl.round (a * b)

/-- The operator `/` on Numbers; a zero divisor is `+0`. -/
def Dbl.div : Dbl → Dbl → Dbl
  | Dbl.nan, _ => Dbl.nan
  | _, Dbl.nan => Dbl.nan
  | Dbl.inf _, Dbl.inf _ => Dbl.nan
  | Dbl.inf s, Dbl.fin b => Dbl.inf (s != decide (b < 0))
  | Dbl.fin _, Dbl.inf _ => Dbl.fin 0
  | Dbl.fin a, Dbl.fin b =>
    if b = 0 then (if a = 0 then Dbl.nan else Dbl.inf (decide (a < 0)))
    else Dbl.round (a / b)

/-- The function `Math.abs`. -/
def Dbl.abs : Dbl → Dbl
  | Dbl.fin q => Dbl.fin (if q < 0 then -q else q)
  | Dbl.inf _ => Dbl.inf false
  | Dbl.nan => Dbl.nan

/-- The function `Math.sqrt`. -/
def Dbl.sqrt : Dbl → Dbl
  | Dbl.fin q => if q < 0 then Dbl.nan else Dbl.roundSqrt q
  | Dbl.inf s => if s then Dbl.nan else Dbl.inf false
  | Dbl.nan => Dbl.nan

/-- The function `Math.hypot` of two arguments: an infinite argument gives
`+Infinity`, else a `NaN` argument gives `NaN`. -/
def Dbl.hypot : Dbl → Dbl → Dbl
  | Dbl.inf _, _ => Dbl.inf false
  | _, Dbl.inf _ => Dbl.inf false
  | Dbl.nan, _ => Dbl.nan
  | _, Dbl.nan => Dbl.nan
  | Dbl.fin a, Dbl.fin b => Dbl.roundSqrt (a * a + b * b)

/-- The comparison `<` on Numbers: false when an operand is `NaN`. -/
def Dbl.lt : Dbl → Dbl → Bool
  | Dbl.nan, _ => false
  | _, Dbl.nan => false
  | Dbl.fin a, Dbl.fin b => decide (a < b)
  | Dbl.fin _, Dbl.inf t => !t
  | Dbl.inf s, Dbl.fin _ => s
  | Dbl.inf s, Dbl.inf t => s && !t

/-- The coordinate fields of a `Line`, held as doubles. -/
structure DLine where
  startX : Dbl
  startY : Dbl
  endX : Dbl
  endY : Dbl
  deriving DecidableEq

/-- The method `Line.contains(x, y)` computed in double arithmetic, operation
by operation as in the source. -/
def DLine.contains (l : DLine) (x y : Dbl) : Option String :=
  let distance :=
    Dbl.div
      (Dbl.abs
        (Dbl.sub
          (Dbl.add
            (Dbl.sub (Dbl.mul (Dbl.sub l.endY l.startY) x) (Dbl.mul (Dbl.sub l.endX l.startX) y))
            (Dbl.mul l.endX l.startY))
          (Dbl.mul l.endY l.startX)))
      (Dbl.sqrt
        (Dbl.add (Dbl.mul (Dbl.sub l.endY l.startY) (Dbl.sub l.endY l.startY))
          (Dbl.mul (Dbl.sub l.endX l.startX) (Dbl.sub l.endX l.startX))))
  if Dbl.lt distance (Dbl.fin 5) then
    if Dbl.lt (Dbl.hypot (Dbl.sub l.startX x) (Dbl.sub l.startY y)) (Dbl.fin 10) then
      some "start"
    else if Dbl.lt (Dbl.hypot (Dbl.sub l.endX x) (Dbl.sub l.endY y)) (Dbl.fin 10) then
      some "end"
    else none
  else none

/-- The method `Line.move(dx, dy)` computed in double arithmetic. -/
def DLine.move (l : DLine) (dx dy : Dbl) : DLine :=
  { startX := Dbl.add l.startX dx, endX := Dbl.add l.endX dx,
    startY := Dbl.add l.startY dy, endY := Dbl.add l.endY dy }

/-- What the moving branch of `onPointerMove` does to the selected line over
a run of calls, in double arithmetic: at each offset `(x, y)` the line is
moved by `(x - lastPointerPos.x, y - lastPointerPos.y)` and `lastPointerPos`
becomes `(x, y)`. -/
def DLine.drag (l : DLine) (last : Dbl × Dbl) : List (Dbl × Dbl) → DLine × (Dbl × Dbl)
  | [] => (l, last)
  | (x, y) :: rest => DLine.drag (l.move (Dbl.sub x last.1) (Dbl.sub y last.2)) (x, y) rest

/-! ## Hit-testing: the comparisons on squares are the comparisons of the source -/

theorem lengthSq_eq_zero_iff (l : Line) :
    l.lengthSq = 0 ↔ l.startX = l.endX ∧ l.startY = l.endY := by
  unfold Line.lengthSq
  constructor
  · intro h
    have h1 : (l.endY - l.startY) ^ 2 = 0 := by nlinarith [sq_nonneg (l.endY - l.startY), sq_nonneg (l.endX - l.startX)]
    have h2 : (l.endX - l.startX) ^ 2 = 0 := by nlinarith [sq_nonneg (l.endY - l.startY), sq_nonneg (l.endX - l.startX)]
    have h3 := pow_eq_zero_iff (two_ne_zero) |>.1 h1
    have h4 := pow_eq_zero_iff (two_ne_zero) |>.1 h2
    constructor <;> linarith
  · rintro ⟨hx, hy⟩
    rw [hx, hy]; ring

theorem lengthSq_nonneg (l : Line) : 0 ≤ l.lengthSq := by
  unfold Line.lengthSq; positivity

/-- On a zero-length line the numerator of `distance` is zero too: the JS
quotient is `0 / 0`. -/
theorem crossTerm_eq_zero_of_lengthSq (l : Line) (x y : ℚ) (h : l.lengthSq = 0) :
    l.crossTerm x y = 0 := by
  obtain ⟨hx, hy⟩ := (lengthSq_eq_zero_iff l).1 h
  unfold Line.crossTerm
  rw [hx, hy]; ring

/-- For a positive denominator, `Math.abs(n) / Math.sqrt(d) < 5` over the
reals is `n ^ 2 / d < 25` over the rationals. -/
theorem abs_div_sqrt_lt_iff (n d : ℚ) (hd : 0 < d) :
    |(n : ℝ)| / Real.sqrt (d : ℝ) < 5 ↔ n ^ 2 / d < 25 := by
  have hdR : (0 : ℝ) < (d : ℝ) := by exact_mod_cast hd
  have hs : 0 < Real.sqrt (d : ℝ) := Real.sqrt_pos.2 hdR
  have hsq : Real.sqrt (d : ℝ) ^ 2 = (d : ℝ) := Real.sq_sqrt hdR.le
  rw [div_lt_iff₀ hs, div_lt_iff₀ hd]
  have key : |(n : ℝ)| < 5 * Real.sqrt (d : ℝ) ↔ (n : ℝ) ^ 2 < 25 * (d : ℝ) := by
    constructor
    · intro h
      have h0 : 0 ≤ |(n : ℝ)| := abs_nonneg _
      have : |(n : ℝ)| ^ 2 < (5 * Real.sqrt (d : ℝ)) ^ 2 := by
        apply pow_lt_pow_left₀ h h0 two_ne_zero
      rw [sq_abs, mul_pow, hsq] at this
      linarith
    · intro h
      have h5 : 0 ≤ 5 * Real.sqrt (d : ℝ) := by positivity
      apply abs_lt_of_sq_lt_sq _ h5
      rw [mul_pow, hsq]; linarith
  rw [key]
  exact_mod_cast Iff.rfl

/-- The test `Math.hypot(a, b) < 10` over the reals is `hypotSq a b < 100`. -/
theorem sqrt_hypotSq_lt_iff (a b : ℚ) :
    Real.sqrt ((a : ℝ) ^ 2 + (b : ℝ) ^ 2) < 10 ↔ hypotSq a b < 100 := by
  rw [Real.sqrt_lt' (by norm_num : (0 : ℝ) < 10)]
  unfold hypotSq
  have : ((10 : ℝ)) ^ 2 = 100 := by norm_num
  rw [this]
  exact_mod_cast Iff.rfl

/-- Unfolding of `contains` on a line of non-zero length. -/
theorem contains_of_lengthSq_ne (l : Line) (x y : ℚ) (h : l.lengthSq ≠ 0) :
    l.contains x y =
      if l.crossTerm x y ^ 2 / l.lengthSq < 25 then
        if hypotSq (l.startX - x) (l.startY - y) < 100 then some "start"
        else if hypotSq (l.endX - x) (l.endY - y) < 100 then some "end"
        else none
      else none := by
  simp [Line.contains, Line.distanceSq, h]

/-- On a zero-length line `contains` is `null` at every point. -/
theorem contains_of_lengthSq_eq (l : Line) (x y : ℚ) (h : l.lengthSq = 0) :
    l.contains x y = none := by
  simp [Line.contains, Line.distanceSq, h]

/-- The result of `contains` is `null`, `"start"` or `"end"`. -/
theorem contains_cases (l : Line) (x y : ℚ) :
    l.contains x y = none ∨ l.contains x y = some "start" ∨ l.contains x y = some "end" := by
  unfold Line.contains
  split
  · exact Or.inl rfl
  · split_ifs <;> simp

/-- The method `contains` reads the coordinates only. -/
theorem contains_congr (l m : Line) (x y : ℚ) (h1 : l.startX = m.startX)
    (h2 : l.startY = m.startY) (h3 : l.endX = m.endX) (h4 : l.endY = m.endY) :
    l.contains x y = m.contains x y := by
  simp [Line.contains, Line.distanceSq, Line.lengthSq, Line.crossTerm, h1, h2, h3, h4]

/-! ## Claims about `Line.contains` -/

/-- The result of `contains` on a line of non-zero length, in terms of the
real distances, over exact arithmetic; `crossTerm` and `lengthSq` are the
numerator and the squared denominator of `distance`. -/
theorem contains_iff_sqrt (l : Line) (x y : ℚ)
    (hne : ¬ (l.startX = l.endX ∧ l.startY = l.endY)) :
    (l.contains x y = some "start" ↔
      |((l.crossTerm x y : ℚ) : ℝ)| / Real.sqrt ((l.lengthSq : ℚ) : ℝ) < 5 ∧
      Real.sqrt (((x - l.startX : ℚ) : ℝ) ^ 2 + ((y - l.startY : ℚ) : ℝ) ^ 2) < 10) ∧
    (l.contains x y = some "end" ↔
      |((l.crossTerm x y : ℚ) : ℝ)| / Real.sqrt ((l.lengthSq : ℚ) : ℝ) < 5 ∧
      10 ≤ Real.sqrt (((x - l.startX : ℚ) : ℝ) ^ 2 + ((y - l.startY : ℚ) : ℝ) ^ 2) ∧
      Real.sqrt (((x - l.endX : ℚ) : ℝ) ^ 2 + ((y - l.endY : ℚ) : ℝ) ^ 2) < 10) ∧
    (l.contains x y = none ↔
      ¬ (|((l.crossTerm x y : ℚ) : ℝ)| / Real.sqrt ((l.lengthSq : ℚ) : ℝ) < 5 ∧
        (Real.sqrt (((x - l.startX : ℚ) : ℝ) ^ 2 + ((y - l.startY : ℚ) : ℝ) ^ 2) < 10 ∨
         Real.sqrt (((x - l.endX : ℚ) : ℝ) ^ 2 + ((y - l.endY : ℚ) : ℝ) ^ 2) < 10))) ∧
    (|((l.crossTerm x y : ℚ) : ℝ)| / Real.sqrt ((l.lengthSq : ℚ) : ℝ) < 5 →
      Real.sqrt (((x - l.startX : ℚ) : ℝ) ^ 2 + ((y - l.startY : ℚ) : ℝ) ^ 2) < 10 →
      Real.sqrt (((x - l.endX : ℚ) : ℝ) ^ 2 + ((y - l.endY : ℚ) : ℝ) ^ 2) < 10 →
      l.contains x y = some "start") ∧
    (10 ≤ Real.sqrt (((x - l.startX : ℚ) : ℝ) ^ 2 + ((y - l.startY : ℚ) : ℝ) ^ 2) →
      10 ≤ Real.sqrt (((x - l.endX : ℚ) : ℝ) ^ 2 + ((y - l.endY : ℚ) : ℝ) ^ 2) →
      l.contains x y = none) := by
  have hlen : l.lengthSq ≠ 0 := fun h => hne ((lengthSq_eq_zero_iff l).1 h)
  have hpos : 0 < l.lengthSq := lt_of_le_of_ne (lengthSq_nonneg l) (Ne.symm hlen)
  have hd := abs_div_sqrt_lt_iff (l.crossTerm x y) l.lengthSq hpos
  have hs := sqrt_hypotSq_lt_iff (x - l.startX) (y - l.startY)
  have he := sqrt_hypotSq_lt_iff (x - l.endX) (y - l.endY)
  have hs2 : hypotSq (l.startX - x) (l.startY - y) = hypotSq (x - l.startX) (y - l.startY) := by
    unfold hypotSq; ring
  have he2 : hypotSq (l.endX - x) (l.endY - y) = hypotSq (x - l.endX) (y - l.endY) := by
    unfold hypotSq; ring
  rw [contains_of_lengthSq_ne l x y hlen, hs2, he2, hd, hs, he, not_lt.symm, hs, not_lt.symm, he]
  have hse : ("start" : String) ≠ "end" := by decide
  refine ⟨?_, ?_, ?_, ?_, ?_⟩
  · split_ifs <;> simp_all
  · split_ifs <;> simp_all
  · split_ifs <;> simp_all
  · intro h1 h2 _; simp [h1, h2]
  · intro h1 h2; simp [h1, h2]

/-- Claim C1, amended.  Over exact arithmetic (rational coordinates, `-`, `*`,
`/`, `Math.sqrt` and `Math.hypot` without rounding): for a line with
start ≠ end and a point `(x, y)`, with
`d = |(endY-startY)*x - (endX-startX)*y + endX*startY - endY*startX| / length`:
`contains` returns `"start"` exactly when `d < 5` and the point is at Euclidean
distance `< 10` from start; `"end"` exactly when `d < 5`, the distance to start
is `≥ 10` and the distance to end is `< 10`; `null` in every other case.  In
particular start wins when both endpoints are within 10, and a point at
distance `≥ 10` from both endpoints gives `null`. -/
theorem contains_spec (l : Line) (x y : ℚ)
    (hne : ¬ (l.startX = l.endX ∧ l.startY = l.endY)) :
    (l.contains x y = some "start" ↔
      |((((l.endY - l.startY) * x - (l.endX - l.startX) * y + l.endX * l.startY
          - l.endY * l.startX : ℚ)) : ℝ)| /
        Real.sqrt ((((l.endY - l.startY) ^ 2 + (l.endX - l.startX) ^ 2 : ℚ)) : ℝ) < 5 ∧
      Real.sqrt (((x - l.startX : ℚ) : ℝ) ^ 2 + ((y - l.startY : ℚ) : ℝ) ^ 2) < 10) ∧
    (l.contains x y = some "end" ↔
      |((((l.endY - l.startY) * x - (l.endX - l.startX) * y + l.endX * l.startY
          - l.endY * l.startX : ℚ)) : ℝ)| /
        Real.sqrt ((((l.endY - l.startY) ^ 2 + (l.endX - l.startX) ^ 2 : ℚ)) : ℝ) < 5 ∧
      10 ≤ Real.sqrt (((x - l.startX : ℚ) : ℝ) ^ 2 + ((y - l.startY : ℚ) : ℝ) ^ 2) ∧
      Real.sqrt (((x - l.endX : ℚ) : ℝ) ^ 2 + ((y - l.endY : ℚ) : ℝ) ^ 2) < 10) ∧
    (l.contains x y = none ↔
      ¬ (|((((l.endY - l.startY) * x - (l.endX - l.startX) * y + l.endX * l.startY
          - l.endY * l.startX : ℚ)) : ℝ)| /
        Real.sqrt ((((l.endY - l.startY) ^ 2 + (l.endX - l.startX) ^ 2 : ℚ)) : ℝ) < 5 ∧
        (Real.sqrt (((x - l.startX : ℚ) : ℝ) ^ 2 + ((y - l.startY : ℚ) : ℝ) ^ 2) < 10 ∨
         Real.sqrt (((x - l.endX : ℚ) : ℝ) ^ 2 + ((y - l.endY : ℚ) : ℝ) ^ 2) < 10))) ∧
    (|((((l.endY - l.startY) * x - (l.endX - l.startX) * y + l.endX * l.startY
          - l.endY * l.startX : ℚ)) : ℝ)| /
        Real.sqrt ((((l.endY - l.startY) ^ 2 + (l.endX - l.startX) ^ 2 : ℚ)) : ℝ) < 5 →
      Real.sqrt (((x - l.startX : ℚ) : ℝ) ^ 2 + ((y - l.startY : ℚ) : ℝ) ^ 2) < 10 →
      Real.sqrt (((x - l.endX : ℚ) : ℝ) ^ 2 + ((y - l.endY : ℚ) : ℝ) ^ 2) < 10 →
      l.contains x y = some "start") ∧
    (10 ≤ Real.sqrt (((x - l.startX : ℚ) : ℝ) ^ 2 + ((y - l.startY : ℚ) : ℝ) ^ 2) →
      10 ≤ Real.sqrt (((x - l.endX : ℚ) : ℝ) ^ 2 + ((y - l.endY : ℚ) : ℝ) ^ 2) →
      l.contains x y = none) :=
  contains_iff_sqrt l x y hne

/-- Claim C1, amended, at the line `(0,0)-(100,0)` and the point `(2,0)`. -/
theorem contains_spec_witness :
    ¬ ((Line.new 0 0 100 0).startX = (Line.new 0 0 100 0).endX ∧
        (Line.new 0 0 100 0).startY = (Line.new 0 0 100 0).endY) ∧
    (Line.new 0 0 100 0).contains 2 0 = some "start" ∧
    (Line.new 0 0 100 0).contains 98 0 ≠ some "start" := by
  have hne : ¬ ((Line.new 0 0 100 0).startX = (Line.new 0 0 100 0).endX ∧
      (Line.new 0 0 100 0).startY = (Line.new 0 0 100 0).endY) := by norm_num [Line.new]
  refine ⟨hne, ?_, ?_⟩
  · refine (contains_spec (Line.new 0 0 100 0) 2 0 hne).1.2 ⟨?_, ?_⟩
    · rw [abs_div_sqrt_lt_iff _ _ (by norm_num [Line.new])]
      norm_num [Line.new]
    · rw [sqrt_hypotSq_lt_iff]
      norm_num [Line.new, hypotSq]
  · intro h
    have h2 := ((contains_spec (Line.new 0 0 100 0) 98 0 hne).1.1 h).2
    rw [sqrt_hypotSq_lt_iff] at h2
    norm_num [Line.new, hypotSq] at h2

/-- Four hit-tests of the line `(0,0)-(100,0)`: near the start, near the end,
in the middle, and 20 units off the line. -/
theorem contains_examples :
    (Line.new 0 0 100 0).contains 2 0 = some "start" ∧
    (Line.new 0 0 100 0).contains 98 0 = some "end" ∧
    (Line.new 0 0 100 0).contains 50 0 = none ∧
    (Line.new 0 0 100 0).contains 2 20 = none := by
  refine ⟨?_, ?_, ?_, ?_⟩ <;>
    norm_num [Line.contains, Line.distanceSq, Line.new, Line.lengthSq, Line.crossTerm, hypotSq]

/-- Claim C2, as the code behaves.  On the zero-length line at `(10,10)` the
call `contains(10, 10)` returns `null`, not `"start"`: `distance` is `0 / 0`,
and `NaN < 5` is false.  The same holds for every zero-length line and every
point. -/
theorem contains_degenerate :
    (Line.new 10 10 10 10).contains 10 10 = none ∧
    ∀ (sx sy x y : ℚ) (sel rot : Bool),
      Line.contains
        { startX := sx, startY := sy, endX := sx, endY := sy,
          isSelected := sel, isRotating := rot } x y = none := by
  constructor
  · norm_num [Line.contains, Line.distanceSq, Line.new, Line.lengthSq, Line.crossTerm, hypotSq]
  · intro sx sy x y sel rot
    apply contains_of_lengthSq_eq
    simp [Line.lengthSq]

/-! ## The selection loop of `onPointerDown` -/

theorem selectLoop_fst (x y : ℚ) (ls : List Line) (i : Nat) (sel : Option (Nat × Line)) :
    (selectLoop x y ls i sel).1 = ls.map (markSelected x y) := by
  induction ls generalizing i sel with
  | nil => rfl
  | cons a t ih =>
    unfold selectLoop
    split_ifs with h
    · simp [ih, markSelected, h]
    · simp [ih, markSelected, h]

theorem selectLoop_snd_of_no_hit (x y : ℚ) (ls : List Line) (i : Nat)
    (sel : Option (Nat × Line)) (h : ∀ l ∈ ls, l.contains x y = none) :
    (selectLoop x y ls i sel).2 = sel := by
  induction ls generalizing i sel with
  | nil => rfl
  | cons a t ih =>
    have ha : a.contains x y = none := h a (List.mem_cons_self _ _)
    have ht : ∀ l ∈ t, l.contains x y = none := fun l hl => h l (List.mem_cons_of_mem _ hl)
    unfold selectLoop
    simp [ha, ih _ _ ht]

/-- After the loop `lineSelected` refers to the last line that is hit. -/
theorem selectLoop_snd_of_last_hit (x y : ℚ) (pre post : List Line) (l : Line) (i : Nat)
    (sel : Option (Nat × Line)) (hl : (l.contains x y).isSome = true)
    (hpost : ∀ m ∈ post, m.contains x y = none) :
    (selectLoop x y (pre ++ l :: post) i sel).2
      = some (i + pre.length, { l with isSelected := true }) := by
  induction pre generalizing i sel with
  | nil =>
    simp only [List.nil_append, List.length_nil, Nat.add_zero]
    unfold selectLoop
    simp [hl, selectLoop_snd_of_no_hit x y post _ _ hpost]
  | cons a t ih =>
    simp only [List.cons_append, List.length_cons]
    unfold selectLoop
    split_ifs with h
    · simp only [ih]; simp; omega
    · simp only [ih]; simp; omega

/-- A list with an element satisfying `P` splits at the last such element. -/
theorem exists_last_split {α : Type} (P : α → Prop) (ls : List α) (h : ∃ l ∈ ls, P l) :
    ∃ pre l post, ls = pre ++ l :: post ∧ P l ∧ ∀ m ∈ post, ¬ P m := by
  induction ls with
  | nil => simp at h
  | cons a t ih =>
    by_cases ht : ∃ l ∈ t, P l
    · obtain ⟨pre, l, post, rfl, hl, hpost⟩ := ih ht
      exact ⟨a :: pre, l, post, rfl, hl, hpost⟩
    · obtain ⟨l, hl, hP⟩ := h
      rcases List.mem_cons.1 hl with rfl | hl
      · exact ⟨[], l, t, rfl, hP, fun m hm hPm => ht ⟨m, hm, hPm⟩⟩
      · exact absurd ⟨l, hl, hP⟩ ht

theorem markSelected_of_no_hit (x y : ℚ) (l : Line) (h : l.contains x y = none) :
    markSelected x y l = { l with isSelected := false } := by
  simp [markSelected, h]

theorem markSelected_of_hit (x y : ℚ) (l : Line) (h : (l.contains x y).isSome = true) :
    markSelected x y l = { l with isSelected := true } := by
  simp [markSelected, h]

theorem contains_markSelected (x y u v : ℚ) (l : Line) :
    (markSelected x y l).contains u v = l.contains u v :=
  contains_congr _ _ _ _ rfl rfl rfl rfl

/-- The handler `onPointerDown` when no line is hit. -/
theorem onPointerDown_of_no_hit (app : App) (x y : ℚ)
    (h : ∀ l ∈ app.lines, l.contains x y = none) :
    app.onPointerDown x y =
      { app with isDrawing := true, currentLine := some app.lines.length,
                 lines := app.lines.map (markSelected x y) ++ [Line.new x y x y] } := by
  unfold App.onPointerDown
  simp [selectLoop_snd_of_no_hit x y app.lines 0 none h, selectLoop_fst]

/-- The handler `onPointerDown` when `l` is the last line that is hit. -/
theorem onPointerDown_of_last_hit (app : App) (x y : ℚ) (pre post : List Line) (l : Line)
    (hlines : app.lines = pre ++ l :: post) (hl : (l.contains x y).isSome = true)
    (hpost : ∀ m ∈ post, m.contains x y = none) :
    app.onPointerDown x y =
      if l.contains x y = some "start" then
        { app with lines := app.lines.map (markSelected x y), isMoving := true,
                   isRotating := false, lastPointerPos := some (x, y) }
      else
        { app with lines := app.lines.map (markSelected x y), isMoving := false,
                   isRotating := true, lastPointerPos := some (x, y) } := by
  have hc : Line.contains { l with isSelected := true } x y = l.contains x y :=
    contains_congr _ _ _ _ rfl rfl rfl rfl
  have hsel := selectLoop_snd_of_last_hit x y pre post l 0 none hl hpost
  rw [← hlines] at hsel
  unfold App.onPointerDown
  simp only [hsel, selectLoop_fst, hc]
  rcases contains_cases l x y with h | h | h
  · simp [h] at hl
  · simp [h]
  · simp [h]

theorem end_ne_start : ("end" : String) ≠ "start" := by decide

/-- The lines after `onPointerDown`: every line re-marked, and one new line
appended exactly when no line is hit. -/
theorem onPointerDown_lines (app : App) (x y : ℚ) :
    (app.onPointerDown x y).lines =
      app.lines.map (markSelected x y) ++
        (if ∃ l ∈ app.lines, (l.contains x y).isSome = true then [] else [Line.new x y x y]) := by
  by_cases h : ∃ l ∈ app.lines, (l.contains x y).isSome = true
  · obtain ⟨pre, l, post, hl, hP, hpost⟩ :=
      exists_last_split (fun l => (l.contains x y).isSome = true) app.lines h
    have hpost2 : ∀ m ∈ post, m.contains x y = none := by
      intro m hm
      have := hpost m hm
      simpa using this
    rw [onPointerDown_of_last_hit app x y pre post l hl hP hpost2, if_pos h]
    split_ifs <;> simp
  · have h2 : ∀ l ∈ app.lines, l.contains x y = none := by
      intro l hl
      by_contra hc
      exact h ⟨l, hl, by simpa [Option.isSome_iff_ne_none] using hc⟩
    rw [onPointerDown_of_no_hit app x y h2, if_neg h]

theorem selectedCount_map_markSelected (x y : ℚ) (ls : List Line) :
    selectedCount (ls.map (markSelected x y))
      = (ls.filter (fun l => (l.contains x y).isSome)).length := by
  induction ls with
  | nil => rfl
  | cons a t ih =>
    unfold selectedCount at ih ⊢
    by_cases h : (a.contains x y).isSome = true
    · simp [List.filter_cons, markSelected, h, ih]
    · simp [List.filter_cons, markSelected, h, ih]

theorem selectedCount_append (ls ms : List Line) :
    selectedCount (ls ++ ms) = selectedCount ls + selectedCount ms := by
  simp [selectedCount]

/-! ## Claims about `onPointerDown` -/

/-- Claim C3, as the code behaves.  After the gestures `twoHandlesEvents` on a
fresh canvas, whose last event is a `pointerDown` at `(0,0)` hitting both lines,
two lines have `isSelected == true`.  In general the number of selected lines
after `onPointerDown(x, y)` is the number of lines whose `contains(x, y)` is
non-null: the loop never clears an earlier hit. -/
theorem pointerDown_selects_every_hit :
    selectedCount ((App.new 300 150).run twoHandlesEvents).lines = 2 ∧
    ∀ (app : App) (x y : ℚ),
      selectedCount (app.onPointerDown x y).lines =
        (app.lines.filter (fun l => (l.contains x y).isSome)).length := by
  constructor
  · norm_num [twoHandlesEvents, App.run, App.handle, App.onPointerDown, App.onPointerMove,
      App.onPointerUp, App.new, selectLoop, setEndAt, App.drawCanvas, Line.new, Line.contains,
      Line.distanceSq, Line.lengthSq, Line.crossTerm, hypotSq, updateFirstSelected,
      end_ne_start, selectedCount]
  · intro app x y
    rw [onPointerDown_lines, selectedCount_append, selectedCount_map_markSelected]
    split_ifs <;> simp [selectedCount, Line.new]

/-- Claim C4, as the code behaves.  After the gestures `twoHandlesEvents` the
press at `(0,0)` hits the first line as `"start"` and the second as `"end"`;
the mode is taken from the second, later line (Rotating), but the following
`onPointerMove(30, 40)` re-ends the first line, and the second is unchanged. -/
theorem pointerMove_changes_first_selected :
    ((App.new 300 150).run twoHandlesEvents).lines.map (fun l => l.contains 0 0)
      = [some "start", some "end"] ∧
    ((App.new 300 150).run twoHandlesEvents).isRotating = true ∧
    ((App.new 300 150).run twoHandlesEvents).isMoving = false ∧
    ((App.new 300 150).run twoHandlesEvents).isDrawing = false ∧
    ((App.new 300 150).run twoHandlesEvents).lines =
      [{ startX := 0, startY := 0, endX := 100, endY := 0,
         isSelected := true, isRotating := false },
       { startX := 0, startY := 100, endX := 0, endY := 0,
         isSelected := true, isRotating := false }] ∧
    (((App.new 300 150).run twoHandlesEvents).onPointerMove 30 40).map (fun a => a.lines) =
      some [{ startX := 0, startY := 0, endX := 30, endY := 40,
              isSelected := true, isRotating := false },
            { startX := 0, startY := 100, endX := 0, endY := 0,
              isSelected := true, isRotating := false }] := by
  refine ⟨?_, ?_, ?_, ?_, ?_, ?_⟩ <;>
    norm_num [twoHandlesEvents, App.run, App.handle, App.onPointerDown, App.onPointerMove,
      App.onPointerUp, App.new, selectLoop, setEndAt, App.drawCanvas, Line.new, Line.contains,
      Line.distanceSq, Line.lengthSq, Line.crossTerm, hypotSq, updateFirstSelected,
      end_ne_start, Line.rotate, Line.move]

/-- Claim C5.  In an Idle state, when some line is hit at `(x, y)`:
`lineSelected` is the last line `l` that is hit; the second `contains` call on
it returns `"start"` or `"end"`, never `null`; `onPointerDown` appends no line
(each line is only re-marked), stores `(x, y)` as `lastPointerPos`, leaves
`isDrawing` false, and sets exactly one of `isMoving` (when the result is
`"start"`) and `isRotating` (when it is `"end"`). -/
theorem pointerDown_hit_spec (app : App) (x y : ℚ) (hidle : app.Idle)
    (hhit : ∃ l ∈ app.lines, (l.contains x y).isSome = true) :
    ∃ pre l post, app.lines = pre ++ l :: post ∧
      (l.contains x y).isSome = true ∧ (∀ m ∈ post, m.contains x y = none) ∧
      (selectLoop x y app.lines 0 none).2 = some (pre.length, { l with isSelected := true }) ∧
      (Line.contains { l with isSelected := true } x y = some "start" ∨
        Line.contains { l with isSelected := true } x y = some "end") ∧
      (app.onPointerDown x y).lines = app.lines.map (markSelected x y) ∧
      (app.onPointerDown x y).lines.length = app.lines.length ∧
      (app.onPointerDown x y).currentLine = app.currentLine ∧
      (app.onPointerDown x y).lastPointerPos = some (x, y) ∧
      (app.onPointerDown x y).isDrawing = false ∧
      (Line.contains { l with isSelected := true } x y = some "start" →
        (app.onPointerDown x y).isMoving = true ∧ (app.onPointerDown x y).isRotating = false) ∧
      (Line.contains { l with isSelected := true } x y = some "end" →
        (app.onPointerDown x y).isMoving = false ∧ (app.onPointerDown x y).isRotating = true) ∧
      (app.onPointerDown x y).isMoving ≠ (app.onPointerDown x y).isRotating := by
  obtain ⟨pre, l, post, hl, hP, hpost⟩ :=
    exists_last_split (fun l => (l.contains x y).isSome = true) app.lines hhit
  have hpost2 : ∀ m ∈ post, m.contains x y = none := by
    intro m hm
    have := hpost m hm
    simpa using this
  have hc : Line.contains { l with isSelected := true } x y = l.contains x y :=
    contains_congr _ _ _ _ rfl rfl rfl rfl
  have hsel := selectLoop_snd_of_last_hit x y pre post l 0 none hP hpost2
  rw [← hl, Nat.zero_add] at hsel
  have hdown := onPointerDown_of_last_hit app x y pre post l hl hP hpost2
  obtain ⟨hd, _, _⟩ := hidle
  refine ⟨pre, l, post, hl, hP, hpost2, hsel, ?_, ?_⟩
  · rw [hc]
    rcases contains_cases l x y with h | h | h
    · simp [h] at hP
    · exact Or.inl h
    · exact Or.inr h
  · rw [hc, hdown]
    rcases contains_cases l x y with h | h | h
    · simp [h] at hP
    · simp [h, hd]
    · simp [h, hd, end_ne_start]

/-- Claim C5 at the state holding the single line `(0,0)-(100,0)` and the
point `(98,0)`, which enters Rotating. -/
theorem pointerDown_hit_spec_witness :
    (oneLineApp 100 0).Idle ∧
    (∃ l ∈ (oneLineApp 100 0).lines, (l.contains 98 0).isSome = true) ∧
    ((oneLineApp 100 0).onPointerDown 98 0).lastPointerPos = some (98, 0) ∧
    ((oneLineApp 100 0).onPointerDown 98 0).isMoving ≠
      ((oneLineApp 100 0).onPointerDown 98 0).isRotating := by
  have hidle : (oneLineApp 100 0).Idle := by
    simp [App.Idle, oneLineApp, App.run, App.handle, App.onPointerUp]
  have hhit : ∃ l ∈ (oneLineApp 100 0).lines, (l.contains 98 0).isSome = true := by
    refine ⟨Line.new 0 0 100 0, ?_, ?_⟩
    · simp [oneLineApp, App.run, App.handle, App.onPointerUp, App.onPointerDown,
        App.onPointerMove, App.new, selectLoop, setEndAt, App.drawCanvas, Line.new]
    · norm_num [Line.contains, Line.distanceSq, Line.new, Line.lengthSq, Line.crossTerm,
        hypotSq]
  obtain ⟨_, _, _, _, _, _, _, _, _, _, _, h9, _, _, _, h13⟩ :=
    pointerDown_hit_spec (oneLineApp 100 0) 98 0 hidle hhit
  exact ⟨hidle, hhit, h9, h13⟩

/-! ## Gestures: `onPointerDown` followed by `onPointerMove` -/

theorem setEndAt_append_length (x y : ℚ) (ls : List Line) (l : Line) :
    setEndAt x y (ls ++ [l]) ls.length = ls ++ [{ l with endX := x, endY := y }] := by
  induction ls with
  | nil => rfl
  | cons a t ih => simp [setEndAt, ih]

theorem updateFirstSelected_split (f : Line → Line) (pre post : List Line) (l : Line)
    (hpre : ∀ m ∈ pre, m.isSelected = false) (hl : l.isSelected = true) :
    updateFirstSelected f (pre ++ l :: post) = some (pre ++ f l :: post) := by
  induction pre with
  | nil => simp [updateFirstSelected, hl]
  | cons a t ih =>
    have ha : a.isSelected = false := hpre a (List.mem_cons_self _ _)
    have ht : ∀ m ∈ t, m.isSelected = false := fun m hm => hpre m (List.mem_cons_of_mem _ hm)
    simp [updateFirstSelected, ha, ih ht]

theorem map_markSelected_of_no_hit (x y : ℚ) (ls : List Line)
    (h : ∀ l ∈ ls, l.contains x y = none) :
    ls.map (markSelected x y) = ls.map unselect := by
  apply List.map_congr_left
  intro l hl
  exact markSelected_of_no_hit x y l (h l hl)

theorem drawCanvas_lines (app : App) : app.drawCanvas.lines = app.lines := rfl

/-- Claim C6.  From an Idle state with lines `L`, when no line is hit at
`(ax, ay)`: `onPointerDown(ax, ay)` appends exactly one line with both
endpoints at `(ax, ay)` and enters Drawing; the following
`onPointerMove(bx, by)` returns normally and sets the end of that line to
`(bx, by)`, its start staying `(ax, ay)`; `onPointerUp` then changes no line.
The final lines are those of `L`, coordinates unchanged, followed by the
single line from `(ax, ay)` to `(bx, by)`. -/
theorem draw_gesture_spec (app : App) (ax ay bx by1 : ℚ) (hidle : app.Idle)
    (hmiss : ∀ l ∈ app.lines, l.contains ax ay = none) :
    (app.onPointerDown ax ay).lines = app.lines.map unselect ++ [Line.new ax ay ax ay] ∧
    (app.onPointerDown ax ay).isDrawing = true ∧
    (app.onPointerDown ax ay).isMoving = false ∧
    (app.onPointerDown ax ay).isRotating = false ∧
    (app.onPointerDown ax ay).currentLine = some app.lines.length ∧
    ∃ s2, (app.onPointerDown ax ay).onPointerMove bx by1 = some s2 ∧
      s2.lines = app.lines.map unselect ++ [Line.new ax ay bx by1] ∧
      s2.onPointerUp.lines = app.lines.map unselect ++ [Line.new ax ay bx by1] ∧
      s2.onPointerUp.lines.length = app.lines.length + 1 ∧
      s2.onPointerUp.Idle := by
  obtain ⟨_, hm, hr⟩ := hidle
  have hdown := onPointerDown_of_no_hit app ax ay hmiss
  rw [map_markSelected_of_no_hit ax ay app.lines hmiss] at hdown
  have hlen : app.lines.length = (app.lines.map unselect).length := by simp
  rw [hdown]
  refine ⟨rfl, rfl, hm, hr, rfl, ?_⟩
  refine ⟨_, by simp only [App.onPointerMove, if_true]; rfl, ?_⟩
  have hset : setEndAt bx by1 (app.lines.map unselect ++ [Line.new ax ay ax ay]) app.lines.length
      = app.lines.map unselect ++ [Line.new ax ay bx by1] := by
    rw [hlen, setEndAt_append_length]; rfl
  simp [App.onPointerUp, App.drawCanvas, App.Idle, hset]

/-- Claim C6 on a fresh canvas with `a = (0,0)` and `b = (10,0)`. -/
theorem draw_gesture_spec_witness :
    (App.new 300 150).Idle ∧ (∀ l ∈ (App.new 300 150).lines, l.contains 0 0 = none) ∧
    ((App.new 300 150).onPointerDown 0 0).lines = [Line.new 0 0 0 0] ∧
    ∃ s2, ((App.new 300 150).onPointerDown 0 0).onPointerMove 10 0 = some s2 ∧
      s2.lines = [Line.new 0 0 10 0] ∧ s2.onPointerUp.lines = [Line.new 0 0 10 0] := by
  have hidle : (App.new 300 150).Idle := by simp [App.Idle, App.new]
  have hmiss : ∀ l ∈ (App.new 300 150).lines, l.contains 0 0 = none := by simp [App.new]
  obtain ⟨h1, _, _, _, _, s2, h2, h3, h4, _⟩ :=
    draw_gesture_spec (App.new 300 150) 0 0 10 0 hidle hmiss
  exact ⟨hidle, hmiss, by simpa [App.new] using h1, s2, h2, by simpa [App.new] using h3,
    by simpa [App.new] using h4⟩

/-- The lines after `onPointerDown` when exactly one line `S` is hit. -/
theorem map_markSelected_of_single_hit (x y : ℚ) (pre post : List Line) (S : Line)
    (hpre : ∀ m ∈ pre, m.contains x y = none) (hpost : ∀ m ∈ post, m.contains x y = none)
    (hS : (S.contains x y).isSome = true) :
    (pre ++ S :: post).map (markSelected x y)
      = pre.map unselect ++ { S with isSelected := true } :: post.map unselect := by
  rw [List.map_append, List.map_cons, map_markSelected_of_no_hit x y pre hpre,
    map_markSelected_of_no_hit x y post hpost, markSelected_of_hit x y S hS]

theorem unselect_not_selected (ls : List Line) : ∀ m ∈ ls.map unselect, m.isSelected = false := by
  intro m hm
  obtain ⟨a, _, rfl⟩ := List.mem_map.1 hm
  rfl

/-- Claim C7.  From an Idle state in which `S` is the only line hit at
`(px, py)`, with result `"start"`: `onPointerDown(px, py)` followed by
`onPointerMove(qx, qy)` returns normally, adds `(qx - px, qy - py)` to both
endpoints of `S`, leaves the coordinates of every other line unchanged, and
sets `lastPointerPos` to `(qx, qy)`. -/
theorem move_gesture_spec (app : App) (pre post : List Line) (S : Line) (px py qx qy : ℚ)
    (hidle : app.Idle) (hlines : app.lines = pre ++ S :: post)
    (hpre : ∀ m ∈ pre, m.contains px py = none) (hpost : ∀ m ∈ post, m.contains px py = none)
    (hS : S.contains px py = some "start") :
    ∃ s2, (app.onPointerDown px py).onPointerMove qx qy = some s2 ∧
      s2.lines = pre.map unselect ++
        { startX := S.startX + (qx - px), startY := S.startY + (qy - py),
          endX := S.endX + (qx - px), endY := S.endY + (qy - py),
          isSelected := true, isRotating := S.isRotating } :: post.map unselect ∧
      s2.lastPointerPos = some (qx, qy) := by
  obtain ⟨hd, _, _⟩ := hidle
  have hS2 : (S.contains px py).isSome = true := by simp [hS]
  have hdown := onPointerDown_of_last_hit app px py pre post S hlines hS2 hpost
  rw [if_pos hS, hlines, map_markSelected_of_single_hit px py pre post S hpre hpost hS2] at hdown
  have hupd := updateFirstSelected_split (fun l => l.move (qx - px) (qy - py))
    (pre.map unselect) (post.map unselect) { S with isSelected := true }
    (unselect_not_selected pre) rfl
  rw [hdown]
  simp only [App.onPointerMove, hd, hupd]
  exact ⟨_, rfl, rfl, rfl⟩

/-- Claim C7 at the line `(0,0)-(10,0)`, pressed at `(0,0)` and dragged to
`(3,4)`: the line becomes `(3,4)-(13,4)`. -/
theorem move_gesture_spec_witness :
    (oneLineApp 10 0).Idle ∧ (oneLineApp 10 0).lines = [] ++ Line.new 0 0 10 0 :: [] ∧
    (Line.new 0 0 10 0).contains 0 0 = some "start" ∧
    ∃ s2, ((oneLineApp 10 0).onPointerDown 0 0).onPointerMove 3 4 = some s2 ∧
      s2.lines = [{ startX := 3, startY := 4, endX := 13, endY := 4,
                    isSelected := true, isRotating := false }] ∧
      s2.lastPointerPos = some (3, 4) := by
  have hidle : (oneLineApp 10 0).Idle := by
    simp [App.Idle, oneLineApp, App.run, App.handle, App.onPointerUp]
  have hlines : (oneLineApp 10 0).lines = [] ++ Line.new 0 0 10 0 :: [] := by
    simp [oneLineApp, App.run, App.handle, App.onPointerUp, App.onPointerDown,
      App.onPointerMove, App.new, selectLoop, setEndAt, App.drawCanvas, Line.new]
  have hS : (Line.new 0 0 10 0).contains 0 0 = some "start" := by
    norm_num [Line.contains, Line.distanceSq, Line.new, Line.lengthSq, Line.crossTerm, hypotSq]
  obtain ⟨s2, h1, h2, h3⟩ :=
    move_gesture_spec (oneLineApp 10 0) [] [] (Line.new 0 0 10 0) 0 0 3 4 hidle hlines
      (by simp) (by simp) hS
  refine ⟨hidle, hlines, hS, s2, h1, ?_, h3⟩
  rw [h2]
  norm_num [Line.new]

/-- Claim C8.  From an Idle state in which `S` is the only line hit at
`(px, py)`, with result `"end"`: `onPointerDown(px, py)` followed by
`onPointerMove(qx, qy)` returns normally, sets the end of `S` to `(qx, qy)`,
leaves the start of `S` and the coordinates of every other line unchanged, and
leaves `lastPointerPos` equal to `(px, py)`. -/
theorem rotate_gesture_spec (app : App) (pre post : List Line) (S : Line) (px py qx qy : ℚ)
    (hidle : app.Idle) (hlines : app.lines = pre ++ S :: post)
    (hpre : ∀ m ∈ pre, m.contains px py = none) (hpost : ∀ m ∈ post, m.contains px py = none)
    (hS : S.contains px py = some "end") :
    ∃ s2, (app.onPointerDown px py).onPointerMove qx qy = some s2 ∧
      s2.lines = pre.map unselect ++
        { startX := S.startX, startY := S.startY, endX := qx, endY := qy,
          isSelected := true, isRotating := S.isRotating } :: post.map unselect ∧
      s2.lastPointerPos = some (px, py) := by
  obtain ⟨hd, _, _⟩ := hidle
  have hS2 : (S.contains px py).isSome = true := by simp [hS]
  have hne : ¬ S.contains px py = some "start" := by simp [hS, end_ne_start]
  have hdown := onPointerDown_of_last_hit app px py pre post S hlines hS2 hpost
  rw [if_neg hne, hlines, map_markSelected_of_single_hit px py pre post S hpre hpost hS2] at hdown
  have hupd := updateFirstSelected_split (fun l => l.rotate qx qy)
    (pre.map unselect) (post.map unselect) { S with isSelected := true }
    (unselect_not_selected pre) rfl
  rw [hdown]
  simp only [App.onPointerMove, hd, hupd]
  exact ⟨_, rfl, rfl, rfl⟩

/-- Claim C8 at the line `(0,0)-(10,0)`, pressed at `(10,0)` and dragged to
`(0,10)`: the line becomes `(0,0)-(0,10)` and `lastPointerPos` stays `(10,0)`. -/
theorem rotate_gesture_spec_witness :
    (oneLineApp 10 0).Idle ∧ (oneLineApp 10 0).lines = [] ++ Line.new 0 0 10 0 :: [] ∧
    (Line.new 0 0 10 0).contains 10 0 = some "end" ∧
    ∃ s2, ((oneLineApp 10 0).onPointerDown 10 0).onPointerMove 0 10 = some s2 ∧
      s2.lines = [{ startX := 0, startY := 0, endX := 0, endY := 10,
                    isSelected := true, isRotating := false }] ∧
      s2.lastPointerPos = some (10, 0) := by
  have hidle : (oneLineApp 10 0).Idle := by
    simp [App.Idle, oneLineApp, App.run, App.handle, App.onPointerUp]
  have hlines : (oneLineApp 10 0).lines = [] ++ Line.new 0 0 10 0 :: [] := by
    simp [oneLineApp, App.run, App.handle, App.onPointerUp, App.onPointerDown,
      App.onPointerMove, App.new, selectLoop, setEndAt, App.drawCanvas, Line.new]
  have hS : (Line.new 0 0 10 0).contains 10 0 = some "end" := by
    norm_num [Line.contains, Line.distanceSq, Line.new, Line.lengthSq, Line.crossTerm, hypotSq]
  obtain ⟨s2, h1, h2, h3⟩ :=
    rotate_gesture_spec (oneLineApp 10 0) [] [] (Line.new 0 0 10 0) 10 0 0 10 hidle hlines
      (by simp) (by simp) hS
  refine ⟨hidle, hlines, hS, s2, h1, ?_, h3⟩
  rw [h2]
  norm_num [Line.new]

/-! ## Reachable states -/

theorem run_cons (s : App) (e : Event) (events : List Event) :
    s.run (e :: events) = (s.handle e).run events := rfl

/-- A property of the initial states kept by every handler holds in every
reachable state. -/
theorem reachable_induction (P : App → Prop) (hinit : ∀ w h, P (App.new w h))
    (hstep : ∀ s e, P s → P (s.handle e)) : ∀ s, Reachable s → P s := by
  have hrun : ∀ (events : List Event) (s : App), P s → P (s.run events) := by
    intro events
    induction events with
    | nil => intro s hs; exact hs
    | cons e t ih => intro s hs; rw [run_cons]; exact ih _ (hstep s e hs)
  rintro s ⟨w, h, events, rfl⟩
  exact hrun events _ (hinit w h)

theorem setEndAt_length (x y : ℚ) (ls : List Line) (i : Nat) :
    (setEndAt x y ls i).length = ls.length := by
  induction ls generalizing i with
  | nil => rfl
  | cons a t ih => cases i <;> simp [setEndAt, ih]

theorem setEndAt_isSelected (x y : ℚ) (ls : List Line) (i : Nat)
    (h : ∀ l ∈ ls, l.isSelected = false) : ∀ l ∈ setEndAt x y ls i, l.isSelected = false := by
  induction ls generalizing i with
  | nil => intro l hl; simp [setEndAt] at hl
  | cons a t ih =>
    have ha : a.isSelected = false := h a (List.mem_cons_self _ _)
    have ht : ∀ l ∈ t, l.isSelected = false := fun l hl => h l (List.mem_cons_of_mem _ hl)
    cases i with
    | zero =>
      intro l hl
      simp only [setEndAt, List.mem_cons] at hl
      rcases hl with rfl | hl
      · exact ha
      · exact ht l hl
    | succ j =>
      intro l hl
      simp only [setEndAt, List.mem_cons] at hl
      rcases hl with rfl | hl
      · exact ha
      · exact ih j ht l hl

/-- The loop over the selected line changes at most one line, a selected one,
into its image under `f`. -/
theorem updateFirstSelected_spec (f : Line → Line) (ls ls2 : List Line)
    (h : updateFirstSelected f ls = some ls2) :
    ls2.length = ls.length ∧
    ∀ (i : Nat) (l l2 : Line), ls[i]? = some l → ls2[i]? = some l2 → l2 ≠ l →
      l.isSelected = true ∧ l2 = f l := by
  induction ls generalizing ls2 with
  | nil => simp [updateFirstSelected] at h
  | cons a t ih =>
    unfold updateFirstSelected at h
    split_ifs at h with ha
    · have h2 : ls2 = f a :: t := by simpa using h.symm
      subst h2
      refine ⟨by simp, ?_⟩
      intro i l l2 hl hl2 hne
      cases i with
      | zero =>
        simp only [List.getElem?_cons_zero, Option.some.injEq] at hl hl2
        subst hl; subst hl2
        exact ⟨ha, rfl⟩
      | succ j =>
        simp only [List.getElem?_cons_succ] at hl hl2
        rw [hl] at hl2
        exact absurd (Option.some.inj hl2).symm hne
    · cases hr : updateFirstSelected f t with
      | none => simp [hr] at h
      | some r =>
        rw [hr] at h
        have h2 : ls2 = a :: r := by simpa using h.symm
        subst h2
        obtain ⟨hlen, hchg⟩ := ih r hr
        refine ⟨by simp [hlen], ?_⟩
        intro i l l2 hl hl2 hne
        cases i with
        | zero =>
          simp only [List.getElem?_cons_zero, Option.some.injEq] at hl hl2
          exact absurd (hl2.symm.trans hl) hne
        | succ j =>
          simp only [List.getElem?_cons_succ] at hl hl2
          exact hchg j l l2 hl hl2 hne

/-- The four ways `onPointerMove` returns normally: the drawing branch, the
moving branch with a selected line, the rotating branch with a selected line,
and no change at all. -/
theorem onPointerMove_cases (s s2 : App) (x y : ℚ) (h : s.onPointerMove x y = some s2) :
    (s.isDrawing = true ∧ ∃ i, s.currentLine = some i ∧
      s2 = ({ s with lines := setEndAt x y s.lines i }).drawCanvas) ∨
    (s.isDrawing = false ∧ ∃ lastX lastY ls, s.isMoving = true ∧
      s.lastPointerPos = some (lastX, lastY) ∧
      updateFirstSelected (fun l => l.move (x - lastX) (y - lastY)) s.lines = some ls ∧
      s2 = { ({ s with lines := ls }).drawCanvas with lastPointerPos := some (x, y) }) ∨
    (s.isDrawing = false ∧ s.isRotating = true ∧ ∃ ls,
      updateFirstSelected (fun l => l.rotate x y) s.lines = some ls ∧
      s2 = ({ s with lines := ls }).drawCanvas) ∨
    (s.isDrawing = false ∧ s2 = s) := by
  obtain ⟨w, ht, ctx, lines, cur, dr, rot, mov, last⟩ := s
  unfold App.onPointerMove at h
  cases dr
  · simp only [Bool.false_eq_true, if_false] at h
    refine Or.inr ?_
    cases mov
    · cases rot
      · simp only [Bool.false_eq_true, if_false, Option.some.injEq] at h
        exact Or.inr (Or.inr ⟨rfl, h.symm⟩)
      · simp only [if_true] at h
        cases hu : updateFirstSelected (fun l => l.rotate x y) lines with
        | none =>
          simp only [hu, Option.some.injEq] at h
          exact Or.inr (Or.inr ⟨rfl, h.symm⟩)
        | some ls =>
          simp only [hu, Option.some.injEq] at h
          exact Or.inr (Or.inl ⟨rfl, rfl, ls, rfl, h.symm⟩)
    · cases last with
      | none =>
        cases rot
        · simp only [Bool.false_eq_true, if_false, Option.some.injEq] at h
          exact Or.inr (Or.inr ⟨rfl, h.symm⟩)
        · simp only [if_true] at h
          cases hu : updateFirstSelected (fun l => l.rotate x y) lines with
          | none =>
            simp only [hu, Option.some.injEq] at h
            exact Or.inr (Or.inr ⟨rfl, h.symm⟩)
          | some ls =>
            simp only [hu, Option.some.injEq] at h
            exact Or.inr (Or.inl ⟨rfl, rfl, ls, rfl, h.symm⟩)
      | some lastPos =>
        obtain ⟨lastX, lastY⟩ := lastPos
        simp only at h
        cases hu : updateFirstSelected (fun l => l.move (x - lastX) (y - lastY)) lines with
        | none =>
          simp only [hu, Option.some.injEq] at h
          exact Or.inr (Or.inr ⟨rfl, h.symm⟩)
        | some ls =>
          simp only [hu, Option.some.injEq] at h
          exact Or.inl ⟨rfl, lastX, lastY, ls, rfl, rfl, hu, h.symm⟩
  · simp only [if_true] at h
    refine Or.inl ⟨rfl, ?_⟩
    cases cur with
    | none => simp at h
    | some i =>
      simp only [Option.some.injEq] at h
      exact ⟨i, rfl, h.symm⟩

/-- The handler `onPointerMove` never changes a mode flag or `currentLine`,
and keeps the number of lines. -/
theorem onPointerMove_flags (s s2 : App) (x y : ℚ) (h : s.onPointerMove x y = some s2) :
    s2.isDrawing = s.isDrawing ∧ s2.isMoving = s.isMoving ∧ s2.isRotating = s.isRotating ∧
    s2.currentLine = s.currentLine ∧ s2.lines.length = s.lines.length := by
  rcases onPointerMove_cases s s2 x y h with
    ⟨_, i, _, rfl⟩ | ⟨_, lx, ly, ls, _, _, hu, rfl⟩ | ⟨_, _, ls, hu, rfl⟩ | ⟨_, rfl⟩
  · exact ⟨rfl, rfl, rfl, rfl, by simp [App.drawCanvas, setEndAt_length]⟩
  · exact ⟨rfl, rfl, rfl, rfl, by simp [App.drawCanvas, (updateFirstSelected_spec _ _ _ hu).1]⟩
  · exact ⟨rfl, rfl, rfl, rfl, by simp [App.drawCanvas, (updateFirstSelected_spec _ _ _ hu).1]⟩
  · exact ⟨rfl, rfl, rfl, rfl, rfl⟩

theorem inv_new (w h : ℚ) : (App.new w h).Inv := by
  simp [App.Inv, App.new]

theorem inv_onPointerDown (s : App) (x y : ℚ) (hs : s.Inv) : (s.onPointerDown x y).Inv := by
  obtain ⟨hcur, hne, _⟩ := hs
  by_cases h : ∃ l ∈ s.lines, (l.contains x y).isSome = true
  · obtain ⟨pre, l, post, hl, hP, hpost⟩ :=
      exists_last_split (fun l => (l.contains x y).isSome = true) s.lines h
    have hpost2 : ∀ m ∈ post, m.contains x y = none := by
      intro m hm
      have := hpost m hm
      simpa using this
    rw [onPointerDown_of_last_hit s x y pre post l hl hP hpost2]
    split_ifs
    · refine ⟨?_, ?_, ?_⟩
      · simpa using hcur
      · simpa using hne
      · intro _ hm; simp at hm
    · refine ⟨?_, ?_, ?_⟩
      · simpa using hcur
      · simpa using hne
      · intro _ _ hr; simp at hr
  · have h2 : ∀ l ∈ s.lines, l.contains x y = none := by
      intro l hl
      by_contra hc
      exact h ⟨l, hl, by simpa [Option.isSome_iff_ne_none] using hc⟩
    rw [onPointerDown_of_no_hit s x y h2, map_markSelected_of_no_hit x y s.lines h2]
    refine ⟨by simp, by simp, ?_⟩
    intro _ _ _ l hl
    simp only [List.mem_append, List.mem_singleton] at hl
    rcases hl with hl | rfl
    · exact unselect_not_selected s.lines l hl
    · rfl

theorem inv_onPointerMove (s s2 : App) (x y : ℚ) (hs : s.Inv)
    (h : s.onPointerMove x y = some s2) : s2.Inv := by
  obtain ⟨hcur, hne, hsel⟩ := hs
  obtain ⟨hd, hm, hr, hc, hlen⟩ := onPointerMove_flags s s2 x y h
  have hnil : s2.lines = [] ↔ s.lines = [] := by
    rw [← List.length_eq_zero, ← List.length_eq_zero (l := s.lines), hlen]
  refine ⟨?_, ?_, ?_⟩
  · rw [hc, hcur, hlen]
    by_cases hn : s.lines = []
    · rw [if_pos hn, if_pos (hnil.2 hn)]
    · rw [if_neg hn, if_neg (fun h2 => hn (hnil.1 h2))]
  · intro h2 h3
    exact hne (hd ▸ h2) (hnil.1 h3)
  · intro h2 h3 h4
    rw [hd] at h2; rw [hm] at h3; rw [hr] at h4
    rcases onPointerMove_cases s s2 x y h with
      ⟨_, i, _, rfl⟩ | ⟨hd2, _⟩ | ⟨hd2, _⟩ | ⟨_, rfl⟩
    · exact setEndAt_isSelected x y s.lines i (hsel h2 h3 h4)
    · rw [h2] at hd2; simp at hd2
    · rw [h2] at hd2; simp at hd2
    · exact hsel h2 h3 h4

theorem inv_onPointerUp (s : App) (hs : s.Inv) : s.onPointerUp.Inv := by
  obtain ⟨hcur, _, _⟩ := hs
  exact ⟨hcur, by simp [App.onPointerUp], by simp [App.onPointerUp]⟩

theorem inv_handle (s : App) (e : Event) (hs : s.Inv) : (s.handle e).Inv := by
  cases e with
  | pointerDown x y => exact inv_onPointerDown s x y hs
  | pointerMove x y =>
    show ((s.onPointerMove x y).getD s).Inv
    cases h : s.onPointerMove x y with
    | none => exact hs
    | some s2 => exact inv_onPointerMove s s2 x y hs h
  | pointerUp => exact inv_onPointerUp s hs

theorem inv_of_reachable (s : App) (hs : Reachable s) : s.Inv :=
  reachable_induction App.Inv inv_new inv_handle s hs

/-! ## Claims about the reachable states -/

/-- Claim C9, as the code behaves.  After the events `pressTwiceEvents` on a
fresh canvas (press, drag, press again without release) both `isDrawing` and
`isMoving` are true: `onPointerDown` never clears `isDrawing`. -/
theorem two_mode_flags_reachable :
    Reachable ((App.new 300 150).run pressTwiceEvents) ∧
    ((App.new 300 150).run pressTwiceEvents).isDrawing = true ∧
    ((App.new 300 150).run pressTwiceEvents).isMoving = true ∧
    ((App.new 300 150).run pressTwiceEvents).isRotating = false := by
  refine ⟨⟨300, 150, pressTwiceEvents, rfl⟩, ?_, ?_, ?_⟩ <;>
    norm_num [pressTwiceEvents, App.run, App.handle, App.onPointerDown, App.onPointerMove,
      App.onPointerUp, App.new, selectLoop, setEndAt, App.drawCanvas, Line.new, Line.contains,
      Line.distanceSq, Line.lengthSq, Line.crossTerm, hypotSq, updateFirstSelected,
      end_ne_start]

/-- Claim C10 fails as stated: after a single `pointerDown(0, 0)` on a fresh
canvas the editor is drawing and the line referenced by `currentLine` has
`isSelected == false`. -/
theorem drawing_line_selected_counterexample :
    ¬ (∀ s : App, Reachable s → s.isDrawing = true →
        ∃ i l, s.currentLine = some i ∧ s.lines[i]? = some l ∧ l.isSelected = true) := by
  intro hall
  obtain ⟨i, l, hi, hl, hsel⟩ :=
    hall ((App.new 300 150).run [Event.pointerDown 0 0]) ⟨300, 150, _, rfl⟩
      (by simp [App.run, App.handle, App.onPointerDown, App.new, selectLoop])
  simp only [App.run, App.handle, App.onPointerDown, App.new, selectLoop, List.foldl_cons,
    List.foldl_nil, List.length_nil, List.nil_append, Option.some.injEq] at hi hl
  subst hi
  simp only [List.getElem?_cons_zero, Option.some.injEq] at hl
  subst hl
  simp [Line.new] at hsel

/-- Claim C10, amended.  In every reachable state: when `isDrawing` is the
only mode flag set, `currentLine` refers to the last line and that line has
`isSelected == false`; and when `isDrawing` is false, every line that
`onPointerMove` changes had `isSelected == true` and still has it. -/
theorem active_line_spec (s : App) (hs : Reachable s) :
    (s.isDrawing = true → s.isMoving = false → s.isRotating = false →
      ∃ l, s.currentLine = some (s.lines.length - 1) ∧
        s.lines[s.lines.length - 1]? = some l ∧ l.isSelected = false) ∧
    (s.isDrawing = false → ∀ (x y : ℚ) (s2 : App), s.onPointerMove x y = some s2 →
      ∀ (i : Nat) (l l2 : Line), s.lines[i]? = some l → s2.lines[i]? = some l2 → l2 ≠ l →
        l.isSelected = true ∧ l2.isSelected = true) := by
  obtain ⟨hcur, hne, hsel⟩ := inv_of_reachable s hs
  constructor
  · intro hd hm hr
    have hn := hne hd
    have hlt : s.lines.length - 1 < s.lines.length := by
      have : 0 < s.lines.length := List.length_pos.2 hn
      omega
    refine ⟨s.lines[s.lines.length - 1], ?_, List.getElem?_eq_getElem hlt, ?_⟩
    · rw [hcur, if_neg hn]
    · exact hsel hd hm hr _ (List.getElem_mem _)
  · intro hd x y s2 h i l l2 hl hl2 hne2
    rcases onPointerMove_cases s s2 x y h with
      ⟨hd2, _⟩ | ⟨_, lx, ly, ls, _, _, hu, rfl⟩ | ⟨_, _, ls, hu, rfl⟩ | ⟨_, rfl⟩
    · rw [hd] at hd2; simp at hd2
    · obtain ⟨h1, h2⟩ := (updateFirstSelected_spec _ _ _ hu).2 i l l2 hl hl2 hne2
      exact ⟨h1, by rw [h2]; exact h1⟩
    · obtain ⟨h1, h2⟩ := (updateFirstSelected_spec _ _ _ hu).2 i l l2 hl hl2 hne2
      exact ⟨h1, by rw [h2]; exact h1⟩
    · rw [hl] at hl2
      exact absurd (Option.some.inj hl2).symm hne2

/-- Claim C10, amended, at the state reached by a single `pointerDown(0, 0)`
on a fresh canvas: the line being drawn is not selected. -/
theorem active_line_spec_witness :
    Reachable ((App.new 300 150).run [Event.pointerDown 0 0]) ∧
    ∃ l, ((App.new 300 150).run [Event.pointerDown 0 0]).currentLine = some 0 ∧
      ((App.new 300 150).run [Event.pointerDown 0 0]).lines[0]? = some l ∧
      l.isSelected = false := by
  have hr : Reachable ((App.new 300 150).run [Event.pointerDown 0 0]) := ⟨300, 150, _, rfl⟩
  refine ⟨hr, ?_⟩
  have h := (active_line_spec _ hr).1
    (by simp [App.run, App.handle, App.onPointerDown, App.new, selectLoop])
    (by simp [App.run, App.handle, App.onPointerDown, App.new, selectLoop])
    (by simp [App.run, App.handle, App.onPointerDown, App.new, selectLoop])
  simpa [App.run, App.handle, App.onPointerDown, App.new, selectLoop] using h

/-! ## Claims about `onPointerUp` and the no-op cases of `onPointerMove` -/

/-- Claim C11.  For every state `s`, `onPointerUp` applied twice gives the
same state as applied once, and after `onPointerUp` the three mode flags are
false and `lastPointerPos` is cleared. -/
theorem onPointerUp_idempotent (s : App) :
    s.onPointerUp.onPointerUp = s.onPointerUp ∧
    s.onPointerUp.isDrawing = false ∧ s.onPointerUp.isMoving = false ∧
    s.onPointerUp.isRotating = false ∧ s.onPointerUp.lastPointerPos = none ∧
    s.onPointerUp.Idle :=
  ⟨rfl, rfl, rfl, rfl, rfl, rfl, rfl, rfl⟩

/-- Claim C12.  For every state, `onPointerUp` leaves the lines unchanged:
the same list, each line with its start, end and `isSelected` as before; the
selection is not cleared. -/
theorem onPointerUp_lines (s : App) :
    s.onPointerUp.lines = s.lines ∧
    s.onPointerUp.lines.map (fun l => l.isSelected) = s.lines.map (fun l => l.isSelected) ∧
    selectedCount s.onPointerUp.lines = selectedCount s.lines ∧
    s.onPointerUp.currentLine = s.currentLine ∧ s.onPointerUp.ctx = s.ctx :=
  ⟨rfl, rfl, rfl, rfl, rfl⟩

theorem updateFirstSelected_of_none_selected (f : Line → Line) (ls : List Line)
    (h : ∀ l ∈ ls, l.isSelected = false) : updateFirstSelected f ls = none := by
  induction ls with
  | nil => rfl
  | cons a t ih =>
    have ha : a.isSelected = false := h a (List.mem_cons_self _ _)
    have ht : ∀ l ∈ t, l.isSelected = false := fun l hl => h l (List.mem_cons_of_mem _ hl)
    simp [updateFirstSelected, ha, ih ht]

/-- Claim C13.  In a state with `isDrawing`, `isMoving` and `isRotating` all
false, `onPointerMove` returns normally and changes nothing: lines, flags,
`lastPointerPos`, `currentLine` and the context log (no redraw) are as before. -/
theorem onPointerMove_idle (s : App) (x y : ℚ) (hidle : s.Idle) :
    s.onPointerMove x y = some s := by
  obtain ⟨w, ht, ctx, lines, cur, dr, rot, mov, last⟩ := s
  obtain ⟨hd, hm, hr⟩ := hidle
  simp only at hd hm hr
  subst hd; subst hm; subst hr
  simp [App.onPointerMove]

/-- Claim C13 at the state holding the single line `(0,0)-(100,0)` after the
pointer was released. -/
theorem onPointerMove_idle_witness :
    (oneLineApp 100 0).Idle ∧ (oneLineApp 100 0).onPointerMove 50 50 = some (oneLineApp 100 0) := by
  have hidle : (oneLineApp 100 0).Idle := by
    simp [App.Idle, oneLineApp, App.run, App.handle, App.onPointerUp]
  exact ⟨hidle, onPointerMove_idle (oneLineApp 100 0) 50 50 hidle⟩

/-- Claim C14.  In a state with `isDrawing` false and `isMoving` or
`isRotating` true in which no line has `isSelected == true`, `onPointerMove`
returns normally and changes nothing: no line, no flag, not `lastPointerPos`,
and nothing is drawn. -/
theorem onPointerMove_no_selected (s : App) (x y : ℚ) (hd : s.isDrawing = false)
    (hmode : s.isMoving = true ∨ s.isRotating = true)
    (hsel : ∀ l ∈ s.lines, l.isSelected = false) :
    s.onPointerMove x y = some s := by
  obtain ⟨w, ht, ctx, lines, cur, dr, rot, mov, last⟩ := s
  simp only at hd hmode hsel
  subst hd
  have hu : ∀ f, updateFirstSelected f lines = none :=
    fun f => updateFirstSelected_of_none_selected f lines hsel
  cases mov <;> cases rot <;> cases last <;> simp [App.onPointerMove, hu]

/-- Claim C14 at `strayMovingApp`: Moving with no selected line. -/
theorem onPointerMove_no_selected_witness :
    strayMovingApp.isDrawing = false ∧ strayMovingApp.isMoving = true ∧
    (∀ l ∈ strayMovingApp.lines, l.isSelected = false) ∧
    strayMovingApp.onPointerMove 30 40 = some strayMovingApp := by
  have hd : strayMovingApp.isDrawing = false := by
    simp [strayMovingApp, oneLineApp, App.run, App.handle, App.onPointerUp]
  have hsel : ∀ l ∈ strayMovingApp.lines, l.isSelected = false := by
    simp [strayMovingApp, oneLineApp, App.run, App.handle, App.onPointerUp, App.onPointerDown,
      App.onPointerMove, App.new, selectLoop, setEndAt, App.drawCanvas, Line.new]
  exact ⟨hd, rfl, hsel, onPointerMove_no_selected strayMovingApp 30 40 hd (Or.inl rfl) hsel⟩

/-! ## The collection of lines is append-only -/

theorem setEndAt_getElem? (x y : ℚ) (ls : List Line) (j i : Nat) (l : Line)
    (h : ls[i]? = some l) :
    ∃ l2, (setEndAt x y ls j)[i]? = some l2 ∧ (l2 = l ∨ l2 = { l with endX := x, endY := y }) := by
  induction ls generalizing j i with
  | nil => simp at h
  | cons a t ih =>
    cases j with
    | zero =>
      cases i with
      | zero =>
        simp only [List.getElem?_cons_zero, Option.some.injEq] at h
        subst h
        exact ⟨_, by simp [setEndAt], Or.inr rfl⟩
      | succ k =>
        simp only [List.getElem?_cons_succ] at h
        exact ⟨l, by simp [setEndAt, h], Or.inl rfl⟩
    | succ m =>
      cases i with
      | zero =>
        simp only [List.getElem?_cons_zero, Option.some.injEq] at h
        subst h
        exact ⟨_, by simp [setEndAt], Or.inl rfl⟩
      | succ k =>
        simp only [List.getElem?_cons_succ] at h
        obtain ⟨l2, h1, h2⟩ := ih m k h
        exact ⟨l2, by simpa [setEndAt] using h1, h2⟩

theorem updateFirstSelected_getElem? (f : Line → Line) (ls ls2 : List Line)
    (h : updateFirstSelected f ls = some ls2) (i : Nat) (l : Line) (hl : ls[i]? = some l) :
    ∃ l2, ls2[i]? = some l2 ∧ (l2 = l ∨ l2 = f l) := by
  obtain ⟨hlen, hchg⟩ := updateFirstSelected_spec f ls ls2 h
  have hi : i < ls2.length := by
    rw [hlen]
    exact (List.getElem?_eq_some_iff.1 hl).1
  refine ⟨ls2[i], List.getElem?_eq_getElem hi, ?_⟩
  by_cases heq : ls2[i] = l
  · exact Or.inl heq
  · exact Or.inr (hchg i l ls2[i] hl (List.getElem?_eq_getElem hi) heq).2

/-- Claim C15.  For every state and every event the line at each position
before the event is still at that position after it, possibly updated by one
of the handler's assignments (`isSelected`, the end point, or a move), and the
list never shrinks: the list before is a prefix of the list after as far as
the identity and order of the lines go.  `onPointerDown` appends exactly one
line when no line is hit and none otherwise; `onPointerMove` and
`onPointerUp` keep the length. -/
theorem lines_append_only (s : App) (e : Event) :
    s.lines.length ≤ (s.handle e).lines.length ∧
    (∀ (i : Nat) (l : Line), s.lines[i]? = some l →
      ∃ l2, (s.handle e).lines[i]? = some l2 ∧
        (l2 = l ∨ (∃ b, l2 = { l with isSelected := b }) ∨
          (∃ x y, l2 = { l with endX := x, endY := y }) ∨ ∃ dx dy, l2 = l.move dx dy)) ∧
    (∀ x y : ℚ, (s.onPointerDown x y).lines =
      s.lines.map (markSelected x y) ++
        (if ∃ l ∈ s.lines, (l.contains x y).isSome = true then [] else [Line.new x y x y])) ∧
    (∀ x y : ℚ, (s.onPointerDown x y).lines.length =
      s.lines.length + (if ∃ l ∈ s.lines, (l.contains x y).isSome = true then 0 else 1)) ∧
    (∀ (x y : ℚ) (s2 : App), s.onPointerMove x y = some s2 →
      s2.lines.length = s.lines.length) ∧
    (∀ x y : ℚ, (s.handle (Event.pointerMove x y)).lines.length = s.lines.length) ∧
    s.onPointerUp.lines = s.lines := by
  have hmove : ∀ (x y : ℚ) (s2 : App), s.onPointerMove x y = some s2 →
      s2.lines.length = s.lines.length :=
    fun x y s2 h => (onPointerMove_flags s s2 x y h).2.2.2.2
  have hdownlen : ∀ x y : ℚ, (s.onPointerDown x y).lines.length =
      s.lines.length + (if ∃ l ∈ s.lines, (l.contains x y).isSome = true then 0 else 1) := by
    intro x y
    rw [onPointerDown_lines]
    split_ifs <;> simp
  have hmovelen : ∀ x y : ℚ,
      (s.handle (Event.pointerMove x y)).lines.length = s.lines.length := by
    intro x y
    show ((s.onPointerMove x y).getD s).lines.length = s.lines.length
    cases h : s.onPointerMove x y with
    | none => rfl
    | some s2 => exact hmove x y s2 h
  refine ⟨?_, ?_, fun x y => onPointerDown_lines s x y, hdownlen, hmove, hmovelen, rfl⟩
  · cases e with
    | pointerDown x y =>
      show s.lines.length ≤ (s.onPointerDown x y).lines.length
      rw [hdownlen]; omega
    | pointerMove x y => rw [hmovelen]
    | pointerUp => exact le_refl _
  · intro i l hl
    cases e with
    | pointerDown x y =>
      show ∃ l2, (s.onPointerDown x y).lines[i]? = some l2 ∧ _
      have hi : i < (s.lines.map (markSelected x y)).length := by
        rw [List.length_map]
        exact (List.getElem?_eq_some_iff.1 hl).1
      refine ⟨markSelected x y l, ?_, Or.inr (Or.inl ⟨(l.contains x y).isSome, rfl⟩)⟩
      rw [onPointerDown_lines, List.getElem?_append_left hi, List.getElem?_map, hl]
      rfl
    | pointerMove x y =>
      show ∃ l2, ((s.onPointerMove x y).getD s).lines[i]? = some l2 ∧ _
      cases h : s.onPointerMove x y with
      | none => exact ⟨l, hl, Or.inl rfl⟩
      | some s2 =>
        rcases onPointerMove_cases s s2 x y h with
          ⟨_, j, _, rfl⟩ | ⟨_, lx, ly, ls, _, _, hu, rfl⟩ | ⟨_, _, ls, hu, rfl⟩ | ⟨_, rfl⟩
        · obtain ⟨l2, h1, h2⟩ := setEndAt_getElem? x y s.lines j i l hl
          refine ⟨l2, h1, ?_⟩
          rcases h2 with h2 | h2
          · exact Or.inl h2
          · exact Or.inr (Or.inr (Or.inl ⟨x, y, h2⟩))
        · obtain ⟨l2, h1, h2⟩ := updateFirstSelected_getElem? _ _ _ hu i l hl
          refine ⟨l2, h1, ?_⟩
          rcases h2 with h2 | h2
          · exact Or.inl h2
          · exact Or.inr (Or.inr (Or.inr ⟨_, _, h2⟩))
        · obtain ⟨l2, h1, h2⟩ := updateFirstSelected_getElem? _ _ _ hu i l hl
          refine ⟨l2, h1, ?_⟩
          rcases h2 with h2 | h2
          · exact Or.inl h2
          · exact Or.inr (Or.inr (Or.inl ⟨x, y, h2⟩))
        · exact ⟨l, hl, Or.inl rfl⟩
    | pointerUp => exact ⟨l, hl, Or.inl rfl⟩

/-! ## The redraw -/

theorem foldl_draw (ls : List Line) (c : List CanvasCmd) :
    ls.foldl (fun c l => l.draw c) c = c ++ ls.flatMap strokeCmds := by
  induction ls generalizing c with
  | nil => simp
  | cons a t ih =>
    rw [List.foldl_cons, ih, List.flatMap_cons]
    simp [Line.draw, strokeCmds]

/-- The method `drawCanvas` appends the redraw of the current lines to the
log and changes nothing else. -/
theorem drawCanvas_eq (s : App) :
    s.drawCanvas = { s with ctx := s.ctx ++ expectedRedraw s } := by
  simp [App.drawCanvas, foldl_draw, expectedRedraw]

theorem onPointerDown_ctx (s : App) (x y : ℚ) : (s.onPointerDown x y).ctx = s.ctx := by
  by_cases h : ∃ l ∈ s.lines, (l.contains x y).isSome = true
  · obtain ⟨pre, l, post, hl, hP, hpost⟩ :=
      exists_last_split (fun l => (l.contains x y).isSome = true) s.lines h
    have hpost2 : ∀ m ∈ post, m.contains x y = none := by
      intro m hm
      have := hpost m hm
      simpa using this
    rw [onPointerDown_of_last_hit s x y pre post l hl hP hpost2]
    split_ifs <;> rfl
  · have h2 : ∀ l ∈ s.lines, l.contains x y = none := by
      intro l hl
      by_contra hc
      exact h ⟨l, hl, by simpa [Option.isSome_iff_ne_none] using hc⟩
    rw [onPointerDown_of_no_hit s x y h2]

/-- Claim C16 fails as stated: `onPointerDown(0, 0)` on a fresh canvas appends
a line and sends nothing to the context. -/
theorem pointerDown_redraw_counterexample :
    ¬ (∀ (s : App) (x y : ℚ), (s.onPointerDown x y).lines ≠ s.lines →
        (s.onPointerDown x y).ctx = s.ctx ++ expectedRedraw (s.onPointerDown x y)) := by
  intro hall
  have h := hall (App.new 300 150) 0 0
    (by simp [App.onPointerDown, App.new, selectLoop])
  rw [onPointerDown_ctx] at h
  simp [expectedRedraw, App.new] at h

/-- Claim C16, amended.  With the context modelled as a log of commands:
every `onPointerMove` call that returns either changes nothing at all or
appends to the log exactly one full-surface `clearRect` followed by one stroke
(`beginPath`, `moveTo` start, `lineTo` end, `stroke`) per line, in collection
order, with the coordinates after the call; so a call that changes a line
redraws.  The handlers `onPointerDown` and `onPointerUp` send nothing to the
context, and `drawCanvas` changes no line. -/
theorem redraw_spec (s : App) (x y : ℚ) :
    (∀ s2 : App, s.onPointerMove x y = some s2 →
      s2 = s ∨ s2.ctx = s.ctx ++ expectedRedraw s2) ∧
    (∀ s2 : App, s.onPointerMove x y = some s2 → s2.lines ≠ s.lines →
      s2.ctx = s.ctx ++ expectedRedraw s2) ∧
    (s.onPointerDown x y).ctx = s.ctx ∧ s.onPointerUp.ctx = s.ctx ∧
    s.drawCanvas.lines = s.lines ∧ s.drawCanvas.ctx = s.ctx ++ expectedRedraw s := by
  have hmove : ∀ s2 : App, s.onPointerMove x y = some s2 →
      s2 = s ∨ s2.ctx = s.ctx ++ expectedRedraw s2 := by
    intro s2 h
    rcases onPointerMove_cases s s2 x y h with
      ⟨_, j, _, rfl⟩ | ⟨_, lx, ly, ls, _, _, hu, rfl⟩ | ⟨_, _, ls, hu, rfl⟩ | ⟨_, rfl⟩
    · right; rw [drawCanvas_eq]; rfl
    · right; rw [drawCanvas_eq]; rfl
    · right; rw [drawCanvas_eq]; rfl
    · left; rfl
  refine ⟨hmove, ?_, onPointerDown_ctx s x y, rfl, rfl, ?_⟩
  · intro s2 h hne
    rcases hmove s2 h with h1 | h1
    · rw [h1] at hne; exact absurd rfl hne
    · exact h1
  · rw [drawCanvas_eq]

/-! ## Translation invariance of the hit-test -/

theorem lengthSq_move (l : Line) (dx dy : ℚ) : (l.move dx dy).lengthSq = l.lengthSq := by
  simp only [Line.lengthSq, Line.move]; ring

theorem crossTerm_move (l : Line) (dx dy x y : ℚ) :
    (l.move dx dy).crossTerm (x + dx) (y + dy) = l.crossTerm x y := by
  simp only [Line.crossTerm, Line.move]; ring

/-- Moving a line and the point by the same delta keeps the result of
`contains`. -/
theorem contains_move (l : Line) (dx dy x y : ℚ) :
    (l.move dx dy).contains (x + dx) (y + dy) = l.contains x y := by
  have h1 : (l.move dx dy).startX - (x + dx) = l.startX - x := by simp only [Line.move]; ring
  have h2 : (l.move dx dy).startY - (y + dy) = l.startY - y := by simp only [Line.move]; ring
  have h3 : (l.move dx dy).endX - (x + dx) = l.endX - x := by simp only [Line.move]; ring
  have h4 : (l.move dx dy).endY - (y + dy) = l.endY - y := by simp only [Line.move]; ring
  simp only [Line.contains, Line.distanceSq, lengthSq_move, crossTerm_move, h1, h2, h3, h4]

theorem move_zero (l : Line) : l.move 0 0 = l := by
  simp [Line.move]

theorem move_move (l : Line) (a b c d : ℚ) :
    (l.move a b).move c d = l.move (a + c) (b + d) := by
  simp [Line.move, add_assoc]

/-- One `onPointerMove` in the moving branch, when `S` is the first selected
line. -/
theorem onPointerMove_moving (s : App) (pre post : List Line) (S : Line) (lx ly x y : ℚ)
    (hd : s.isDrawing = false) (hm : s.isMoving = true)
    (hlast : s.lastPointerPos = some (lx, ly)) (hlines : s.lines = pre ++ S :: post)
    (hpre : ∀ m ∈ pre, m.isSelected = false) (hS : S.isSelected = true) :
    ∃ s2, s.onPointerMove x y = some s2 ∧ s2.isDrawing = false ∧ s2.isMoving = true ∧
      s2.lastPointerPos = some (x, y) ∧ s2.lines = pre ++ S.move (x - lx) (y - ly) :: post := by
  obtain ⟨w, ht, ctx, lines, cur, dr, rot, mov, last⟩ := s
  simp only at hd hm hlast hlines
  subst hd; subst hm; subst hlast; subst hlines
  have hupd := updateFirstSelected_split (fun l => l.move (x - lx) (y - ly)) pre post S hpre hS
  simp only [App.onPointerMove, hupd]
  exact ⟨_, rfl, rfl, rfl, rfl, rfl⟩

/-- The state after `onPointerDown` in an Idle state where `S` is the only
line hit, with result `"start"`. -/
theorem onPointerDown_single_start (app : App) (pre post : List Line) (S : Line) (px py : ℚ)
    (hidle : app.Idle) (hlines : app.lines = pre ++ S :: post)
    (hpre : ∀ m ∈ pre, m.contains px py = none) (hpost : ∀ m ∈ post, m.contains px py = none)
    (hS : S.contains px py = some "start") :
    (app.onPointerDown px py).isDrawing = false ∧ (app.onPointerDown px py).isMoving = true ∧
    (app.onPointerDown px py).lastPointerPos = some (px, py) ∧
    (app.onPointerDown px py).lines =
      pre.map unselect ++ { S with isSelected := true } :: post.map unselect := by
  obtain ⟨hd, _, _⟩ := hidle
  have hS2 : (S.contains px py).isSome = true := by simp [hS]
  have hdown := onPointerDown_of_last_hit app px py pre post S hlines hS2 hpost
  rw [if_pos hS, hlines, map_markSelected_of_single_hit px py pre post S hpre hpost hS2] at hdown
  rw [hdown]
  exact ⟨hd, rfl, rfl, rfl⟩

/-- Claim C17, amended.  Over exact arithmetic, for every line `l`, delta
`(dx, dy)` and point `(x, y)`: after `l.move(dx, dy)` the call
`l.contains(x + dx, y + dy)` returns what `l.contains(x, y)` returned before.
Consequently, also over exact arithmetic only, when `S` is the only line hit
at `p`, with `"start"`, then after pressing at `p`, dragging to `q` and
releasing, the line `S` (moved by `q - p`) is hit at `q` as `"start"` and a
`pointerDown` at `q` selects it again. -/
theorem contains_translation_invariant :
    (∀ (l : Line) (dx dy x y : ℚ),
      (l.move dx dy).contains (x + dx) (y + dy) = l.contains x y) ∧
    (∀ (l : Line) (px py qx qy : ℚ), l.contains px py = some "start" →
      (l.move (qx - px) (qy - py)).contains qx qy = some "start") ∧
    (∀ (app : App) (pre post : List Line) (S : Line) (px py qx qy : ℚ),
      app.Idle → app.lines = pre ++ S :: post →
      (∀ m ∈ pre, m.contains px py = none) → (∀ m ∈ post, m.contains px py = none) →
      S.contains px py = some "start" →
      ∃ s2, (app.onPointerDown px py).onPointerMove qx qy = some s2 ∧
        s2.onPointerUp.lines[pre.length]? =
          some (Line.move { S with isSelected := true } (qx - px) (qy - py)) ∧
        (Line.move { S with isSelected := true } (qx - px) (qy - py)).contains qx qy
          = some "start" ∧
        ((s2.onPointerUp.onPointerDown qx qy).lines[pre.length]?).map (fun l => l.isSelected)
          = some true) := by
  have hline : ∀ (l : Line) (px py qx qy : ℚ), l.contains px py = some "start" →
      (l.move (qx - px) (qy - py)).contains qx qy = some "start" := by
    intro l px py qx qy h
    have := contains_move l (qx - px) (qy - py) px py
    rw [h] at this
    rw [← this]
    congr 1 <;> ring
  refine ⟨contains_move, hline, ?_⟩
  intro app pre post S px py qx qy hidle hlines hpre hpost hS
  obtain ⟨hd, hm, hlast, hl⟩ := onPointerDown_single_start app pre post S px py hidle hlines
    hpre hpost hS
  obtain ⟨s2, h1, _, _, _, h5⟩ := onPointerMove_moving (app.onPointerDown px py)
    (pre.map unselect) (post.map unselect) { S with isSelected := true } px py qx qy hd hm hlast
    hl (unselect_not_selected pre) rfl
  have hc : Line.contains { S with isSelected := true } px py = some "start" := by
    rw [← hS]; exact contains_congr _ _ _ _ rfl rfl rfl rfl
  have hhit := hline { S with isSelected := true } px py qx qy hc
  have hget : s2.onPointerUp.lines[pre.length]? =
      some (Line.move { S with isSelected := true } (qx - px) (qy - py)) := by
    show s2.lines[pre.length]? = _
    rw [h5]
    have : pre.length = (pre.map unselect).length := by simp
    rw [this, List.getElem?_append_right (le_refl _)]
    simp
  refine ⟨s2, h1, hget, hhit, ?_⟩
  have hlen : pre.length < (s2.onPointerUp.lines.map (markSelected qx qy)).length := by
    rw [List.length_map]
    exact (List.getElem?_eq_some_iff.1 hget).1
  rw [onPointerDown_lines, List.getElem?_append_left hlen, List.getElem?_map, hget]
  simp [markSelected, hhit]

/-- Claim C17, amended, at the line `(0,0)-(10,0)` dragged by its start handle from
`(0,0)` to `(3,4)`: the moved line is hit at `(3,4)` as `"start"`. -/
theorem contains_translation_invariant_witness :
    (Line.new 0 0 10 0).contains 0 0 = some "start" ∧
    ((Line.new 0 0 10 0).move (3 - 0) (4 - 0)).contains 3 4 = some "start" := by
  have hS : (Line.new 0 0 10 0).contains 0 0 = some "start" := by
    norm_num [Line.contains, Line.distanceSq, Line.new, Line.lengthSq, Line.crossTerm, hypotSq]
  exact ⟨hS, contains_translation_invariant.2.1 (Line.new 0 0 10 0) 0 0 3 4 hS⟩

/-! ## A drag made of several `onPointerMove` calls -/

/-- A run of `onPointerMove` calls in the moving branch: the first selected
line ends up moved by the last offset minus the stored pointer position. -/
theorem onPointerMoves_moving (qs : List (ℚ × ℚ)) :
    ∀ (s : App) (pre post : List Line) (S : Line) (lx ly : ℚ),
      s.isDrawing = false → s.isMoving = true → s.lastPointerPos = some (lx, ly) →
      s.lines = pre ++ S :: post → (∀ m ∈ pre, m.isSelected = false) → S.isSelected = true →
      ∃ s2, s.onPointerMoves qs = some s2 ∧ s2.isDrawing = false ∧ s2.isMoving = true ∧
        s2.lastPointerPos = some ((qs.getLast?).getD (lx, ly)) ∧
        s2.lines = pre ++ S.move (((qs.getLast?).getD (lx, ly)).1 - lx)
          (((qs.getLast?).getD (lx, ly)).2 - ly) :: post := by
  induction qs with
  | nil =>
    intro s pre post S lx ly hd hm hlast hlines _ _
    refine ⟨s, rfl, hd, hm, hlast, ?_⟩
    simp [hlines, move_zero]
  | cons q rest ih =>
    intro s pre post S lx ly hd hm hlast hlines hpre hS
    obtain ⟨x, y⟩ := q
    obtain ⟨s1, h1, hd1, hm1, hlast1, hlines1⟩ :=
      onPointerMove_moving s pre post S lx ly x y hd hm hlast hlines hpre hS
    obtain ⟨s2, h2, hd2, hm2, hlast2, hlines2⟩ :=
      ih s1 pre post (S.move (x - lx) (y - ly)) x y hd1 hm1 hlast1 hlines1 hpre hS
    have hq : (((x, y) :: rest).getLast?).getD (lx, ly) = (rest.getLast?).getD (x, y) := by
      simp [List.getLast?_cons]
    refine ⟨s2, ?_, hd2, hm2, ?_, ?_⟩
    · simp [App.onPointerMoves, h1, h2]
    · rw [hq]; exact hlast2
    · rw [hq, hlines2, move_move]
      congr 3 <;> ring

/-- Claim C18, amended.  Over exact arithmetic: from an Idle state in which
`S` is the only line hit at `(px, py)`, with result `"start"`, and for every
non-empty sequence of points
`qs` with last point `qn`: `onPointerDown(px, py)` followed by `onPointerMove`
at each point of `qs` returns normally; the start and end of `S` are their
original values plus `qn - p`; the vector from start to end is unchanged; the
other lines keep their coordinates; and `lastPointerPos` is `qn`. -/
theorem drag_telescopes (app : App) (pre post : List Line) (S : Line) (px py : ℚ)
    (qs : List (ℚ × ℚ)) (hqs : qs ≠ []) (hidle : app.Idle)
    (hlines : app.lines = pre ++ S :: post)
    (hpre : ∀ m ∈ pre, m.contains px py = none) (hpost : ∀ m ∈ post, m.contains px py = none)
    (hS : S.contains px py = some "start") :
    ∃ s2 S2, (app.onPointerDown px py).onPointerMoves qs = some s2 ∧
      s2.lines = pre.map unselect ++ S2 :: post.map unselect ∧
      S2.startX = S.startX + ((qs.getLast hqs).1 - px) ∧
      S2.startY = S.startY + ((qs.getLast hqs).2 - py) ∧
      S2.endX = S.endX + ((qs.getLast hqs).1 - px) ∧
      S2.endY = S.endY + ((qs.getLast hqs).2 - py) ∧
      S2.endX - S2.startX = S.endX - S.startX ∧ S2.endY - S2.startY = S.endY - S.startY ∧
      s2.lastPointerPos = some (qs.getLast hqs) := by
  obtain ⟨hd, hm, hlast, hl⟩ := onPointerDown_single_start app pre post S px py hidle hlines
    hpre hpost hS
  obtain ⟨s2, h1, _, _, h4, h5⟩ := onPointerMoves_moving qs (app.onPointerDown px py)
    (pre.map unselect) (post.map unselect) { S with isSelected := true } px py hd hm hlast
    hl (unselect_not_selected pre) rfl
  have hq : (qs.getLast?).getD (px, py) = qs.getLast hqs := by
    rw [List.getLast?_eq_getLast qs hqs]; rfl
  rw [hq] at h4 h5
  refine ⟨s2, _, h1, h5, rfl, rfl, rfl, rfl, ?_, ?_, h4⟩
  · simp only [Line.move]; ring
  · simp only [Line.move]; ring

/-- Claim C18, amended, at the line `(0,0)-(10,0)`, pressed at `(0,0)` and dragged
through `(1,1)`, `(7,-2)` to `(3,4)`: the line ends as `(3,4)-(13,4)`. -/
theorem drag_telescopes_witness :
    (oneLineApp 10 0).Idle ∧ (oneLineApp 10 0).lines = [] ++ Line.new 0 0 10 0 :: [] ∧
    (Line.new 0 0 10 0).contains 0 0 = some "start" ∧
    ∃ s2 S2, ((oneLineApp 10 0).onPointerDown 0 0).onPointerMoves [(1, 1), (7, -2), (3, 4)]
        = some s2 ∧
      s2.lines = [S2] ∧ S2.startX = 3 ∧ S2.startY = 4 ∧ S2.endX = 13 ∧ S2.endY = 4 ∧
      s2.lastPointerPos = some (3, 4) := by
  have hidle : (oneLineApp 10 0).Idle := by
    simp [App.Idle, oneLineApp, App.run, App.handle, App.onPointerUp]
  have hlines : (oneLineApp 10 0).lines = [] ++ Line.new 0 0 10 0 :: [] := by
    simp [oneLineApp, App.run, App.handle, App.onPointerUp, App.onPointerDown,
      App.onPointerMove, App.new, selectLoop, setEndAt, App.drawCanvas, Line.new]
  have hS : (Line.new 0 0 10 0).contains 0 0 = some "start" := by
    norm_num [Line.contains, Line.distanceSq, Line.new, Line.lengthSq, Line.crossTerm, hypotSq]
  obtain ⟨s2, S2, h1, h2, h3, h4, h5, h6, _, _, h9⟩ :=
    drag_telescopes (oneLineApp 10 0) [] [] (Line.new 0 0 10 0) 0 0 [(1, 1), (7, -2), (3, 4)]
      (by simp) hidle hlines (by simp) (by simp) hS
  refine ⟨hidle, hlines, hS, s2, S2, h1, by simpa using h2, ?_, ?_, ?_, ?_, by simpa using h9⟩
  · rw [h3]; norm_num [Line.new]
  · rw [h4]; norm_num [Line.new]
  · rw [h5]; norm_num [Line.new]
  · rw [h6]; norm_num [Line.new]

/-! ## Pressing exactly on an endpoint -/

theorem crossTerm_start (l : Line) : l.crossTerm l.startX l.startY = 0 := by
  simp only [Line.crossTerm]; ring

theorem crossTerm_end (l : Line) : l.crossTerm l.endX l.endY = 0 := by
  simp only [Line.crossTerm]; ring

/-- The length of a line, `Math.sqrt(lengthSq)` over the reals, is below 10
exactly when `lengthSq` is below 100. -/
theorem sqrt_lengthSq_lt_iff (l : Line) :
    Real.sqrt ((l.lengthSq : ℚ) : ℝ) < 10 ↔ l.lengthSq < 100 := by
  rw [Real.sqrt_lt' (by norm_num : (0 : ℝ) < 10)]
  have : ((10 : ℝ)) ^ 2 = 100 := by norm_num
  rw [this]
  exact_mod_cast Iff.rfl

/-- The result of `contains` at the two endpoints of a line of non-zero
length, over exact arithmetic, with the length written `√lengthSq`. -/
theorem contains_endpoints_lengthSq (l : Line) (hne : ¬ (l.startX = l.endX ∧ l.startY = l.endY)) :
    l.contains l.startX l.startY = some "start" ∧
    (10 ≤ Real.sqrt ((l.lengthSq : ℚ) : ℝ) → l.contains l.endX l.endY = some "end") ∧
    (Real.sqrt ((l.lengthSq : ℚ) : ℝ) < 10 → l.contains l.endX l.endY = some "start") ∧
    (Real.sqrt ((l.lengthSq : ℚ) : ℝ) < 10 →
      ∀ (app : App) (pre post : List Line), app.lines = pre ++ l :: post →
        (∀ m ∈ post, m.contains l.endX l.endY = none) →
        (app.onPointerDown l.endX l.endY).isMoving = true ∧
        (app.onPointerDown l.endX l.endY).isRotating = false) := by
  have hlen : l.lengthSq ≠ 0 := fun h => hne ((lengthSq_eq_zero_iff l).1 h)
  have hs : hypotSq (l.startX - l.endX) (l.startY - l.endY) = l.lengthSq := by
    simp only [hypotSq, Line.lengthSq]; ring
  have hshort : Real.sqrt ((l.lengthSq : ℚ) : ℝ) < 10 → l.contains l.endX l.endY = some "start" := by
    intro h
    have h2 := (sqrt_lengthSq_lt_iff l).1 h
    rw [contains_of_lengthSq_ne l _ _ hlen, crossTerm_end, hs]
    simp [h2]
  refine ⟨?_, ?_, hshort, ?_⟩
  · rw [contains_of_lengthSq_ne l _ _ hlen, crossTerm_start]
    simp [hypotSq]
  · intro h
    have h2 : ¬ l.lengthSq < 100 := fun h3 => absurd ((sqrt_lengthSq_lt_iff l).2 h3) (not_lt.2 h)
    rw [contains_of_lengthSq_ne l _ _ hlen, crossTerm_end, hs]
    simp [h2, hypotSq]
  · intro h app pre post hlines hpost
    have hc := hshort h
    have hsome : (l.contains l.endX l.endY).isSome = true := by simp [hc]
    rw [onPointerDown_of_last_hit app _ _ pre post l hlines hsome hpost, if_pos hc]
    exact ⟨rfl, rfl⟩

/-- Claim C19, amended.  Over exact arithmetic (no rounding), for a line with
start ≠ end and length `√((endY-startY)² + (endX-startX)²)`:
`contains(startX, startY)` is `"start"`; `contains(endX, endY)` is `"end"` when
the length is `≥ 10` and `"start"` when the length is `< 10`.  So a
`pointerDown` exactly on the end point of a line shorter than 10 that is the
last line hit there sets `isMoving`, not `isRotating`. -/
theorem contains_endpoints (l : Line) (hne : ¬ (l.startX = l.endX ∧ l.startY = l.endY)) :
    l.contains l.startX l.startY = some "start" ∧
    (10 ≤ Real.sqrt ((((l.endY - l.startY) ^ 2 + (l.endX - l.startX) ^ 2 : ℚ)) : ℝ) →
      l.contains l.endX l.endY = some "end") ∧
    (Real.sqrt ((((l.endY - l.startY) ^ 2 + (l.endX - l.startX) ^ 2 : ℚ)) : ℝ) < 10 →
      l.contains l.endX l.endY = some "start") ∧
    (Real.sqrt ((((l.endY - l.startY) ^ 2 + (l.endX - l.startX) ^ 2 : ℚ)) : ℝ) < 10 →
      ∀ (app : App) (pre post : List Line), app.lines = pre ++ l :: post →
        (∀ m ∈ post, m.contains l.endX l.endY = none) →
        (app.onPointerDown l.endX l.endY).isMoving = true ∧
        (app.onPointerDown l.endX l.endY).isRotating = false) :=
  contains_endpoints_lengthSq l hne

/-- Claim C19, amended, at the line `(0,0)-(6,0)`, of length 6: pressing on its
end point gives `"start"`. -/
theorem contains_endpoints_witness :
    ¬ ((Line.new 0 0 6 0).startX = (Line.new 0 0 6 0).endX ∧
        (Line.new 0 0 6 0).startY = (Line.new 0 0 6 0).endY) ∧
    (Line.new 0 0 6 0).contains 0 0 = some "start" ∧
    (Line.new 0 0 6 0).contains 6 0 = some "start" := by
  have hne : ¬ ((Line.new 0 0 6 0).startX = (Line.new 0 0 6 0).endX ∧
      (Line.new 0 0 6 0).startY = (Line.new 0 0 6 0).endY) := by norm_num [Line.new]
  have h := contains_endpoints (Line.new 0 0 6 0) hne
  refine ⟨hne, h.1, h.2.2.1 ?_⟩
  have hl := sqrt_lengthSq_lt_iff (Line.new 0 0 6 0)
  unfold Line.lengthSq at hl
  rw [hl]
  norm_num [Line.new]

/-! ## The reference `currentLine` -/

theorem onPointerMove_eq_none_iff (s : App) (x y : ℚ) :
    s.onPointerMove x y = none ↔ s.isDrawing = true ∧ s.currentLine = none := by
  constructor
  · intro h
    by_cases hd : s.isDrawing = true
    · refine ⟨hd, ?_⟩
      cases hc : s.currentLine with
      | none => rfl
      | some i => simp [App.onPointerMove, hd, hc] at h
    · exfalso
      have hd2 : s.isDrawing = false := by simpa using hd
      obtain ⟨w, ht, ctx, lines, cur, dr, rot, mov, last⟩ := s
      simp only at hd2
      subst hd2
      cases mov <;> cases rot <;> cases last <;>
        simp only [App.onPointerMove, Bool.false_eq_true, if_false, if_true] at h <;>
        (try split at h) <;> simp at h
  · rintro ⟨hd, hc⟩
    simp [App.onPointerMove, hd, hc]

/-- Claim C20.  In every reachable state `currentLine` is `null` exactly when
there is no line and otherwise refers to the last line; hence whenever
`isDrawing` is true `currentLine` is a valid reference, and `onPointerMove`
returns normally at every point: the drawing branch never dereferences
`null`. -/
theorem currentLine_spec (s : App) (hs : Reachable s) :
    (s.currentLine = none ↔ s.lines = []) ∧
    (s.lines ≠ [] → s.currentLine = some (s.lines.length - 1) ∧
      ∃ l, s.lines[s.lines.length - 1]? = some l ∧ s.lines.getLast? = some l) ∧
    (s.isDrawing = true → ∃ i l, s.currentLine = some i ∧ s.lines[i]? = some l) ∧
    (∀ x y : ℚ, ∃ s2, s.onPointerMove x y = some s2) := by
  obtain ⟨hcur, hne, _⟩ := inv_of_reachable s hs
  have hlast : s.lines ≠ [] → s.currentLine = some (s.lines.length - 1) ∧
      ∃ l, s.lines[s.lines.length - 1]? = some l ∧ s.lines.getLast? = some l := by
    intro hn
    have hlt : s.lines.length - 1 < s.lines.length := by
      have : 0 < s.lines.length := List.length_pos.2 hn
      omega
    refine ⟨by rw [hcur, if_neg hn], s.lines[s.lines.length - 1],
      List.getElem?_eq_getElem hlt, ?_⟩
    rw [List.getLast?_eq_getLast s.lines hn, List.getLast_eq_getElem]
  refine ⟨?_, hlast, ?_, ?_⟩
  · rw [hcur]
    by_cases hn : s.lines = []
    · simp [hn]
    · simp [hn]
  · intro hd
    obtain ⟨h1, l, h2, _⟩ := hlast (hne hd)
    exact ⟨_, l, h1, h2⟩
  · intro x y
    cases h : s.onPointerMove x y with
    | some s2 => exact ⟨s2, rfl⟩
    | none =>
      obtain ⟨hd, hc⟩ := (onPointerMove_eq_none_iff s x y).1 h
      rw [(hlast (hne hd)).1] at hc
      simp at hc

/-- Claim C20 at the state reached by `pointerDown(0, 0)` on a fresh canvas:
`currentLine` refers to the only line and `onPointerMove(5, 5)` returns. -/
theorem currentLine_spec_witness :
    Reachable ((App.new 300 150).run [Event.pointerDown 0 0]) ∧
    ((App.new 300 150).run [Event.pointerDown 0 0]).isDrawing = true ∧
    (∃ i l, ((App.new 300 150).run [Event.pointerDown 0 0]).currentLine = some i ∧
      ((App.new 300 150).run [Event.pointerDown 0 0]).lines[i]? = some l) ∧
    ∃ s2, ((App.new 300 150).run [Event.pointerDown 0 0]).onPointerMove 5 5 = some s2 := by
  have hr : Reachable ((App.new 300 150).run [Event.pointerDown 0 0]) := ⟨300, 150, _, rfl⟩
  have hd : ((App.new 300 150).run [Event.pointerDown 0 0]).isDrawing = true := by
    simp [App.run, App.handle, App.onPointerDown, App.new, selectLoop]
  obtain ⟨_, _, h3, h4⟩ := currentLine_spec _ hr
  exact ⟨hr, hd, h3 hd, h4 5 5⟩

/-! ## Double arithmetic: the helper functions compute what they should -/

theorem log2Nat_spec (fuel : ℕ) : ∀ n : ℕ, 0 < n → n ≤ fuel →
    2 ^ log2Nat fuel n ≤ n ∧ n < 2 ^ (log2Nat fuel n + 1) := by
  induction fuel with
  | zero => intro n h0 h; omega
  | succ f ih =>
    intro n h0 h
    unfold log2Nat
    by_cases h2 : n < 2
    · rw [if_pos h2]
      constructor
      · simpa using h0
      · simpa using h2
    · rw [if_neg h2]
      have hpos : 0 < n / 2 := Nat.div_pos (by omega) (by norm_num)
      have hle : n / 2 ≤ f := by omega
      obtain ⟨h3, h4⟩ := ih (n / 2) hpos hle
      constructor
      · rw [pow_succ]
        have := Nat.div_mul_le_self n 2
        nlinarith
      · rw [pow_succ]
        have : n < (n / 2 + 1) * 2 := by omega
        nlinarith

theorem isqrtBits_spec (n : ℕ) : ∀ (b r : ℕ), r * r ≤ n →
    n < (r + 2 ^ (b + 1)) * (r + 2 ^ (b + 1)) →
    isqrtBits n b r * isqrtBits n b r ≤ n ∧
      n < (isqrtBits n b r + 1) * (isqrtBits n b r + 1) := by
  intro b
  induction b with
  | zero =>
    intro r h1 h2
    unfold isqrtBits
    split_ifs with h
    · refine ⟨h, ?_⟩
      simpa [add_assoc] using h2
    · exact ⟨h1, by omega⟩
  | succ b ih =>
    intro r h1 h2
    unfold isqrtBits
    split_ifs with h
    · apply ih _ h
      have e : r + 2 ^ (b + 1) + 2 ^ (b + 1) = r + 2 ^ (b + 1 + 1) := by
        rw [pow_succ 2 (b + 1)]; ring
      rw [e]; exact h2
    · exact ih _ h1 (by omega)

/-- The function `isqrt` is the integer square root. -/
theorem isqrt_spec (n : ℕ) : isqrt n * isqrt n ≤ n ∧ n < (isqrt n + 1) * (isqrt n + 1) := by
  unfold isqrt
  apply isqrtBits_spec n _ 0 (by simp)
  rcases Nat.eq_zero_or_pos n with h0 | h0
  · subst h0; positivity
  · have h1 := (log2Nat_spec n n h0 (le_refl n)).2
    have h2 : log2Nat n n + 1 ≤ 2 * (log2Nat n n / 2 + 1 + 1) := by omega
    have h3 : (2 : ℕ) ^ (log2Nat n n + 1) ≤ 2 ^ (2 * (log2Nat n n / 2 + 1 + 1)) :=
      Nat.pow_le_pow_right (by norm_num) h2
    have h4 : (0 + 2 ^ (log2Nat n n / 2 + 1 + 1)) * (0 + 2 ^ (log2Nat n n / 2 + 1 + 1))
        = 2 ^ (2 * (log2Nat n n / 2 + 1 + 1)) := by
      rw [Nat.zero_add, ← pow_add]; congr 1; ring
    rw [h4]
    exact lt_of_lt_of_le h1 h3

theorem isqrt_eq_sqrt (n : ℕ) : isqrt n = Nat.sqrt n := by
  obtain ⟨h1, h2⟩ := isqrt_spec n
  exact (Nat.eq_sqrt.2 ⟨h1, h2⟩)

/-- The function `pow2` is the integer power of two. -/
theorem pow2_eq_zpow (k : ℤ) : pow2 k = (2 : ℚ) ^ k := by
  unfold pow2
  split_ifs with h
  · obtain ⟨m, rfl⟩ := Int.eq_ofNat_of_zero_le h
    simp
  · have hk : 0 ≤ -k := by omega
    obtain ⟨m, hm⟩ := Int.eq_ofNat_of_zero_le hk
    have hk2 : k = -(m : ℤ) := by omega
    rw [hm, hk2]
    simp

/-- The function `floorLog2` gives the binade of a positive rational. -/
theorem floorLog2_spec (a : ℚ) (ha : 0 < a) :
    (2 : ℚ) ^ floorLog2 a ≤ a ∧ a < (2 : ℚ) ^ (floorLog2 a + 1) := by
  have hnum : 0 < a.num := Rat.num_pos.2 ha
  have hn0 : 0 < a.num.natAbs := Int.natAbs_pos.2 (ne_of_gt hnum)
  have hd0 : 0 < a.den := a.den_pos
  obtain ⟨hn1, hn2⟩ := log2Nat_spec a.num.natAbs a.num.natAbs hn0 (le_refl _)
  obtain ⟨hd1, hd2⟩ := log2Nat_spec a.den a.den hd0 (le_refl _)
  set Ln := log2Nat a.num.natAbs a.num.natAbs with hLn
  set Ld := log2Nat a.den a.den with hLd
  have hcast : ((a.num.natAbs : ℕ) : ℚ) = (a.num : ℚ) := by
    rw [Nat.cast_natAbs, abs_of_pos hnum]
  have haeq : a = ((a.num.natAbs : ℕ) : ℚ) / ((a.den : ℕ) : ℚ) := by
    rw [hcast]; exact (Rat.num_div_den a).symm
  have hdq : (0 : ℚ) < ((a.den : ℕ) : ℚ) := by exact_mod_cast hd0
  have hn1q : ((2 : ℚ)) ^ Ln ≤ ((a.num.natAbs : ℕ) : ℚ) := by exact_mod_cast hn1
  have hn2q : ((a.num.natAbs : ℕ) : ℚ) < (2 : ℚ) ^ (Ln + 1) := by exact_mod_cast hn2
  have hd1q : ((2 : ℚ)) ^ Ld ≤ ((a.den : ℕ) : ℚ) := by exact_mod_cast hd1
  have hd2q : ((a.den : ℕ) : ℚ) < (2 : ℚ) ^ (Ld + 1) := by exact_mod_cast hd2
  have hpLd : (0 : ℚ) < (2 : ℚ) ^ Ld := by positivity
  have hpLn : (0 : ℚ) < (2 : ℚ) ^ Ln := by positivity
  -- the two bounds on `a` around `2 ^ (Ln - Ld)`
  have hup : a < (2 : ℚ) ^ (((Ln : ℤ) - (Ld : ℤ)) + 1) := by
    have e : (2 : ℚ) ^ (((Ln : ℤ) - (Ld : ℤ)) + 1) = (2 : ℚ) ^ (Ln + 1) / (2 : ℚ) ^ Ld := by
      rw [show ((Ln : ℤ) - (Ld : ℤ)) + 1 = ((Ln + 1 : ℕ) : ℤ) - ((Ld : ℕ) : ℤ) by push_cast; ring,
        zpow_sub₀ (by norm_num : (2 : ℚ) ≠ 0), zpow_natCast, zpow_natCast]
    rw [e, haeq, div_lt_div_iff₀ hdq hpLd]
    calc ((a.num.natAbs : ℕ) : ℚ) * (2 : ℚ) ^ Ld
        < (2 : ℚ) ^ (Ln + 1) * (2 : ℚ) ^ Ld := by
          exact mul_lt_mul_of_pos_right hn2q hpLd
      _ ≤ (2 : ℚ) ^ (Ln + 1) * ((a.den : ℕ) : ℚ) := by
          exact mul_le_mul_of_nonneg_left hd1q (by positivity)
  have hlow : (2 : ℚ) ^ (((Ln : ℤ) - (Ld : ℤ)) - 1) ≤ a := by
    have e : (2 : ℚ) ^ (((Ln : ℤ) - (Ld : ℤ)) - 1) = (2 : ℚ) ^ Ln / (2 : ℚ) ^ (Ld + 1) := by
      rw [show ((Ln : ℤ) - (Ld : ℤ)) - 1 = ((Ln : ℕ) : ℤ) - ((Ld + 1 : ℕ) : ℤ) by push_cast; ring,
        zpow_sub₀ (by norm_num : (2 : ℚ) ≠ 0), zpow_natCast, zpow_natCast]
    have hp : (0 : ℚ) < (2 : ℚ) ^ (Ld + 1) := by positivity
    rw [e, haeq, div_le_div_iff₀ hp hdq]
    calc (2 : ℚ) ^ Ln * ((a.den : ℕ) : ℚ)
        ≤ (2 : ℚ) ^ Ln * (2 : ℚ) ^ (Ld + 1) := by
          exact mul_le_mul_of_nonneg_left hd2q.le (by positivity)
      _ ≤ ((a.num.natAbs : ℕ) : ℚ) * (2 : ℚ) ^ (Ld + 1) := by
          exact mul_le_mul_of_nonneg_right hn1q (by positivity)
  unfold floorLog2
  simp only [← hLn, ← hLd, pow2_eq_zpow]
  split_ifs with h
  · exact ⟨h, hup⟩
  · refine ⟨hlow, ?_⟩
    rw [sub_add_cancel]
    exact not_le.1 h

theorem pack_eq_fin (neg : Bool) (n : ℕ) (up : Bool) (Q v : ℚ)
    (h : Dbl.pack neg n up Q = Dbl.fin v) :
    v = (if neg then -1 else 1) * (((if up then n + 1 else n : ℕ) : ℚ) * Q) := by
  unfold Dbl.pack at h
  cases neg <;> cases up <;>
    simp only [Bool.false_eq_true, if_true, if_false] at h ⊢ <;>
    split_ifs at h <;>
    simp only [Dbl.fin.injEq] at h <;>
    rw [← h] <;> ring

/-- Rounding the non-negative `a` at the quantum `Q`: the chosen multiple of
`Q` is at most half a quantum away from `a`. -/
theorem round_core (a Q : ℚ) (hQ : 0 < Q) (ha : 0 ≤ a) :
    |((if (decide (1 / 2 < a / Q - ((⌊a / Q⌋.toNat : ℕ) : ℚ)) ||
            (decide (a / Q - ((⌊a / Q⌋.toNat : ℕ) : ℚ) = 1 / 2) && ⌊a / Q⌋.toNat % 2 == 1))
          then ⌊a / Q⌋.toNat + 1 else ⌊a / Q⌋.toNat : ℕ) : ℚ) * Q - a| ≤ Q / 2 := by
  have htnn : 0 ≤ a / Q := div_nonneg ha hQ.le
  have hfloor : ((⌊a / Q⌋.toNat : ℕ) : ℚ) = ((⌊a / Q⌋ : ℤ) : ℚ) := by
    have h1 : ((⌊a / Q⌋.toNat : ℕ) : ℤ) = ⌊a / Q⌋ :=
      Int.toNat_of_nonneg (Int.floor_nonneg.2 htnn)
    rw [← Int.cast_natCast, h1]
  have hle : ((⌊a / Q⌋.toNat : ℕ) : ℚ) ≤ a / Q := by rw [hfloor]; exact Int.floor_le _
  have hlt : a / Q < ((⌊a / Q⌋.toNat : ℕ) : ℚ) + 1 := by
    rw [hfloor]; exact Int.lt_floor_add_one _
  have haQ : a = a / Q * Q := by field_simp
  generalize ⌊a / Q⌋.toNat = n at hle hlt ⊢
  generalize a / Q = t at hle hlt haQ ⊢
  rw [abs_le]
  split_ifs with hup
  · have h2 : 1 / 2 ≤ t - (n : ℚ) := by
      simp only [Bool.or_eq_true, Bool.and_eq_true, decide_eq_true_eq] at hup
      rcases hup with h | ⟨h, _⟩
      · exact h.le
      · exact h.ge
    push_cast
    constructor <;> nlinarith
  · have h2 : t - (n : ℚ) ≤ 1 / 2 := by
      simp only [Bool.or_eq_true, Bool.and_eq_true, decide_eq_true_eq, not_or] at hup
      exact not_lt.1 hup.1
    constructor <;> nlinarith

/-- A finite result of `Dbl.round` is a double nearest to the exact value:
an integer multiple of the quantum of the binade of `q` (never below
`2 ^ (-1074)`), with a significand of at most `2 ^ 53`, and at most half a
quantum away from `q`. -/
theorem round_nearest (q v : ℚ) (hq : q ≠ 0) (h : Dbl.round q = Dbl.fin v) :
    ∃ m : ℤ, |m| ≤ 2 ^ 53 ∧
      v = (m : ℚ) * (2 : ℚ) ^ (max (floorLog2 |q|) (-1022) - 52) ∧
      |v - q| ≤ (2 : ℚ) ^ (max (floorLog2 |q|) (-1022) - 52) / 2 := by
  have habs : (if q < 0 then -q else q) = |q| := by
    split_ifs with hneg
    · exact (abs_of_neg hneg).symm
    · exact (abs_of_nonneg (not_lt.1 hneg)).symm
  have hapos : 0 < |q| := abs_pos.2 hq
  have hQ : (0 : ℚ) < (2 : ℚ) ^ (max (floorLog2 |q|) (-1022) - 52) := by positivity
  have hcore := round_core |q| _ hQ (abs_nonneg q)
  unfold Dbl.round at h
  rw [if_neg hq] at h
  simp only [habs, pow2_eq_zpow] at h
  have hv := pack_eq_fin _ _ _ _ _ h
  -- the significand is below `2 ^ 53`
  have ht : |q| / (2 : ℚ) ^ (max (floorLog2 |q|) (-1022) - 52) < 2 ^ 53 := by
    rw [div_lt_iff₀ hQ]
    have h1 := (floorLog2_spec |q| hapos).2
    have h2 : (2 : ℚ) ^ (floorLog2 |q| + 1) ≤ (2 : ℚ) ^ (max (floorLog2 |q|) (-1022) + 1) := by
      apply zpow_le_zpow_right₀ (by norm_num)
      have := le_max_left (floorLog2 |q|) (-1022)
      omega
    have h3 : (2 : ℚ) ^ (53 : ℕ) * (2 : ℚ) ^ (max (floorLog2 |q|) (-1022) - 52)
        = (2 : ℚ) ^ (max (floorLog2 |q|) (-1022) + 1) := by
      rw [← zpow_natCast, ← zpow_add₀ (by norm_num : (2 : ℚ) ≠ 0)]
      congr 1
      push_cast
      ring
    rw [h3]
    exact lt_of_lt_of_le h1 h2
  have htnn : 0 ≤ |q| / (2 : ℚ) ^ (max (floorLog2 |q|) (-1022) - 52) := by positivity
  have hnlt : ⌊|q| / (2 : ℚ) ^ (max (floorLog2 |q|) (-1022) - 52)⌋.toNat < 2 ^ 53 := by
    have h1 : ⌊|q| / (2 : ℚ) ^ (max (floorLog2 |q|) (-1022) - 52)⌋ < 2 ^ 53 := by
      rw [Int.floor_lt]
      exact_mod_cast ht
    have h2 := Int.toNat_of_nonneg (Int.floor_nonneg.2 htnn)
    omega
  generalize (decide (1 / 2 < |q| / (2 : ℚ) ^ (max (floorLog2 |q|) (-1022) - 52) -
      ((⌊|q| / (2 : ℚ) ^ (max (floorLog2 |q|) (-1022) - 52)⌋.toNat : ℕ) : ℚ)) ||
    (decide (|q| / (2 : ℚ) ^ (max (floorLog2 |q|) (-1022) - 52) -
      ((⌊|q| / (2 : ℚ) ^ (max (floorLog2 |q|) (-1022) - 52)⌋.toNat : ℕ) : ℚ) = 1 / 2) &&
      ⌊|q| / (2 : ℚ) ^ (max (floorLog2 |q|) (-1022) - 52)⌋.toNat % 2 == 1)) = up at hcore hv
  generalize ⌊|q| / (2 : ℚ) ^ (max (floorLog2 |q|) (-1022) - 52)⌋.toNat = n at hcore hv hnlt
  generalize (2 : ℚ) ^ (max (floorLog2 |q|) (-1022) - 52) = Q at hcore hv hQ ⊢
  have hm : (if up = true then n + 1 else n) ≤ 2 ^ 53 := by split_ifs <;> omega
  generalize (if up = true then n + 1 else n) = M at hcore hv hm
  by_cases hneg : q < 0
  · refine ⟨-(M : ℤ), ?_, ?_, ?_⟩
    · rw [abs_neg, abs_of_nonneg (by positivity)]
      exact_mod_cast hm
    · rw [hv]; simp [hneg]
    · rw [hv]
      have e : |q| = -q := abs_of_neg hneg
      rw [e] at hcore
      simp only [hneg, decide_True, if_true]
      rw [abs_le] at hcore ⊢
      constructor <;> linarith [hcore.1, hcore.2]
  · refine ⟨(M : ℤ), ?_, ?_, ?_⟩
    · rw [abs_of_nonneg (by positivity)]
      exact_mod_cast hm
    · rw [hv]; simp [hneg]
    · rw [hv]
      have e : |q| = q := abs_of_nonneg (not_lt.1 hneg)
      rw [e] at hcore
      simp only [hneg, decide_False, Bool.false_eq_true, if_false]
      rw [abs_le] at hcore ⊢
      constructor <;> linarith [hcore.1, hcore.2]

theorem sqrt_round_core (s : ℚ) (n : ℕ) (up : Bool)
    (h1 : (n : ℚ) ^ 2 ≤ s) (h2 : s < ((n : ℚ) + 1) ^ 2)
    (hup : up = true → ((n : ℚ) + 1 / 2) ^ 2 ≤ s)
    (hdn : up = false → s ≤ ((n : ℚ) + 1 / 2) ^ 2) :
    |(((if up then n + 1 else n : ℕ) : ℕ) : ℝ) - Real.sqrt (s : ℝ)| ≤ 1 / 2 := by
  have hn0 : (0 : ℝ) ≤ (n : ℝ) := by positivity
  have hs0 : (0 : ℝ) ≤ (s : ℝ) := by
    have : (0 : ℚ) ≤ s := le_trans (by positivity) h1
    exact_mod_cast this
  have hlo : (n : ℝ) ≤ Real.sqrt (s : ℝ) := by
    rw [Real.le_sqrt hn0 hs0]
    exact_mod_cast h1
  have hhi : Real.sqrt (s : ℝ) < (n : ℝ) + 1 := by
    rw [Real.sqrt_lt' (by positivity)]
    exact_mod_cast h2
  rw [abs_le]
  cases up with
  | true =>
    have h3 : (n : ℝ) + 1 / 2 ≤ Real.sqrt (s : ℝ) := by
      rw [Real.le_sqrt (by positivity) hs0]
      have h4 := (Rat.cast_le (K := ℝ)).2 (hup rfl)
      push_cast at h4
      exact h4
    simp only [if_true]
    push_cast
    constructor <;> linarith
  | false =>
    have h3 : Real.sqrt (s : ℝ) ≤ (n : ℝ) + 1 / 2 := by
      rw [Real.sqrt_le_left (by positivity)]
      have h4 := (Rat.cast_le (K := ℝ)).2 (hdn rfl)
      push_cast at h4
      exact h4
    simp only [Bool.false_eq_true, if_false]
    constructor <;> linarith

/-- A finite result of `Dbl.roundSqrt` is a double nearest to the square
root: a multiple of the quantum at most half a quantum away from `√q`. -/
theorem roundSqrt_nearest (q v : ℚ) (hq : 0 < q) (h : Dbl.roundSqrt q = Dbl.fin v) :
    ∃ m : ℕ, v = (m : ℚ) * (2 : ℚ) ^ (max (floorLog2 q / 2) (-1022) - 52) ∧
      |(v : ℝ) - Real.sqrt (q : ℝ)|
        ≤ (((2 : ℚ) ^ (max (floorLog2 q / 2) (-1022) - 52) : ℚ) : ℝ) / 2 := by
  have hQ : (0 : ℚ) < (2 : ℚ) ^ (max (floorLog2 q / 2) (-1022) - 52) := by positivity
  unfold Dbl.roundSqrt at h
  rw [if_neg (not_le.2 hq)] at h
  simp only [pow2_eq_zpow] at h
  have hv := pack_eq_fin _ _ _ _ _ h
  simp only [Bool.false_eq_true, if_false, one_mul] at hv
  generalize (2 : ℚ) ^ (max (floorLog2 q / 2) (-1022) - 52) = Q at hv hQ ⊢
  have hs0 : 0 ≤ q / (Q * Q) := by positivity
  have hfloor : ((⌊q / (Q * Q)⌋.toNat : ℕ) : ℚ) = ((⌊q / (Q * Q)⌋ : ℤ) : ℚ) := by
    have h1 : ((⌊q / (Q * Q)⌋.toNat : ℕ) : ℤ) = ⌊q / (Q * Q)⌋ :=
      Int.toNat_of_nonneg (Int.floor_nonneg.2 hs0)
    rw [← Int.cast_natCast, h1]
  have hle : ((⌊q / (Q * Q)⌋.toNat : ℕ) : ℚ) ≤ q / (Q * Q) := by
    rw [hfloor]; exact Int.floor_le _
  have hlt : q / (Q * Q) < ((⌊q / (Q * Q)⌋.toNat : ℕ) : ℚ) + 1 := by
    rw [hfloor]; exact Int.lt_floor_add_one _
  obtain ⟨hi1, hi2⟩ := isqrt_spec ⌊q / (Q * Q)⌋.toNat
  have hqs : q = q / (Q * Q) * (Q * Q) := by field_simp
  generalize ⌊q / (Q * Q)⌋.toNat = F at hv hle hlt hi1 hi2
  generalize q / (Q * Q) = s at hv hle hlt hqs hs0
  have h1 : ((isqrt F : ℕ) : ℚ) ^ 2 ≤ s := by
    have : ((isqrt F * isqrt F : ℕ) : ℚ) ≤ (F : ℚ) := by exact_mod_cast hi1
    push_cast at this
    nlinarith
  have h2 : s < (((isqrt F : ℕ) : ℚ) + 1) ^ 2 := by
    have : ((F + 1 : ℕ) : ℚ) ≤ (((isqrt F + 1) * (isqrt F + 1) : ℕ) : ℚ) := by
      exact_mod_cast hi2
    push_cast at this
    nlinarith
  have hhalf : ((((2 * isqrt F + 1) * (2 * isqrt F + 1) : ℕ) : ℚ)) / 4
      = (((isqrt F : ℕ) : ℚ) + 1 / 2) ^ 2 := by
    push_cast; ring
  rw [hhalf] at hv
  have hcore := sqrt_round_core s (isqrt F)
    (decide ((((isqrt F : ℕ) : ℚ) + 1 / 2) ^ 2 < s) ||
      (decide (s = (((isqrt F : ℕ) : ℚ) + 1 / 2) ^ 2) && isqrt F % 2 == 1)) h1 h2
    (by
      intro hup
      simp only [Bool.or_eq_true, Bool.and_eq_true, decide_eq_true_eq] at hup
      rcases hup with hh | ⟨hh, _⟩
      · exact hh.le
      · exact hh.ge)
    (by
      intro hup
      simp only [Bool.or_eq_false_iff, decide_eq_false_iff_not] at hup
      exact not_lt.1 hup.1)
  generalize (decide ((((isqrt F : ℕ) : ℚ) + 1 / 2) ^ 2 < s) ||
      (decide (s = (((isqrt F : ℕ) : ℚ) + 1 / 2) ^ 2) && isqrt F % 2 == 1)) = up at hv hcore
  generalize (if up = true then isqrt F + 1 else isqrt F) = M at hv hcore
  refine ⟨M, hv, ?_⟩
  have hQR : (0 : ℝ) < (Q : ℝ) := by exact_mod_cast hQ
  have hsq : Real.sqrt (q : ℝ) = Real.sqrt (s : ℝ) * (Q : ℝ) := by
    rw [hqs]
    push_cast
    rw [Real.sqrt_mul' _ (by positivity), Real.sqrt_mul_self hQR.le]
  rw [hv, hsq]
  push_cast
  rw [← sub_mul, abs_mul, abs_of_pos hQR]
  calc |(M : ℝ) - Real.sqrt (s : ℝ)| * (Q : ℝ) ≤ 1 / 2 * (Q : ℝ) :=
        mul_le_mul_of_nonneg_right hcore hQR.le
    _ = (Q : ℝ) / 2 := by ring

/-! ## Double arithmetic: where the statements of exact arithmetic fail

The decimal literals of the inputs are read as JavaScript reads them, as the
nearest double: `Dbl.round (96 / 10)` is the Number `9.6`. -/

/-- The hit-tests used in the gestures above give the same results when
computed in double arithmetic; on the zero-length line the quotient is
`0 / 0 = NaN` and the result is `null`. -/
theorem contains_double_examples :
    DLine.contains ⟨Dbl.fin 0, Dbl.fin 0, Dbl.fin 100, Dbl.fin 0⟩ (Dbl.fin 2) (Dbl.fin 0)
      = some "start" ∧
    DLine.contains ⟨Dbl.fin 0, Dbl.fin 0, Dbl.fin 100, Dbl.fin 0⟩ (Dbl.fin 98) (Dbl.fin 0)
      = some "end" ∧
    DLine.contains ⟨Dbl.fin 0, Dbl.fin 0, Dbl.fin 100, Dbl.fin 0⟩ (Dbl.fin 50) (Dbl.fin 0)
      = none ∧
    DLine.contains ⟨Dbl.fin 0, Dbl.fin 0, Dbl.fin 100, Dbl.fin 0⟩ (Dbl.fin 2) (Dbl.fin 20)
      = none ∧
    DLine.contains ⟨Dbl.fin 0, Dbl.fin 0, Dbl.fin 100, Dbl.fin 0⟩ (Dbl.fin 0) (Dbl.fin 0)
      = some "start" ∧
    DLine.contains ⟨Dbl.fin 0, Dbl.fin 0, Dbl.fin 100, Dbl.fin 0⟩ (Dbl.fin 0) (Dbl.fin 100)
      = none ∧
    DLine.contains ⟨Dbl.fin 0, Dbl.fin 100, Dbl.fin 0, Dbl.fin 0⟩ (Dbl.fin 0) (Dbl.fin 0)
      = some "end" ∧
    DLine.contains ⟨Dbl.fin 10, Dbl.fin 10, Dbl.fin 10, Dbl.fin 10⟩ (Dbl.fin 10) (Dbl.fin 10)
      = none ∧
    DLine.contains ⟨Dbl.fin 10, Dbl.fin 10, Dbl.fin 10, Dbl.fin 10⟩ (Dbl.fin 50) (Dbl.fin 50)
      = none := by
  decide!

/-- Claim C1 fails as stated: on the line `(0,0)-(10,0)` at the point
`(9.6, 2.8)` the program, in double arithmetic, returns `"end"`, because
`Math.hypot(-9.6, -2.8)` is `10`; yet, for the two doubles as exact numbers,
`d < 5` and the Euclidean distance to start is `< 10`, for which the claim
says `"start"`. -/
theorem contains_rounding_counterexample :
    Dbl.round (96 / 10) = Dbl.fin (5404319552844595 / 562949953421312) ∧
    Dbl.round (28 / 10) = Dbl.fin (3152519739159347 / 1125899906842624) ∧
    DLine.contains ⟨Dbl.fin 0, Dbl.fin 0, Dbl.fin 10, Dbl.fin 0⟩
      (Dbl.round (96 / 10)) (Dbl.round (28 / 10)) = some "end" ∧
    Dbl.hypot (Dbl.sub (Dbl.fin 0) (Dbl.round (96 / 10)))
      (Dbl.sub (Dbl.fin 0) (Dbl.round (28 / 10))) = Dbl.fin 10 ∧
    |((((0 - 0) * (5404319552844595 / 562949953421312) - (10 - 0) * (3152519739159347 / 1125899906842624) + 10 * 0 - 0 * 0 : ℚ)) : ℝ)| /
        Real.sqrt ((((0 - 0) ^ 2 + (10 - 0) ^ 2 : ℚ)) : ℝ) < 5 ∧
    Real.sqrt ((((5404319552844595 / 562949953421312) - 0 : ℚ) : ℝ) ^ 2 + (((3152519739159347 / 1125899906842624) - 0 : ℚ) : ℝ) ^ 2) < 10 := by
  refine ⟨by decide!, by decide!, by decide!, by decide!, ?_, ?_⟩
  · rw [abs_div_sqrt_lt_iff _ _ (by norm_num)]
    norm_num
  · rw [sqrt_hypotSq_lt_iff]
    norm_num [hypotSq]

/-- Claim C19 fails as stated: the line from `(0,0)` to `(9.6, 2.8)` has
start ≠ end and, for the two doubles as exact numbers, a length below 10, for
which the claim says that `contains(endX, endY)` is `"start"`; the program, in
double arithmetic, returns `"end"`, because `Math.hypot(-9.6, -2.8)` is `10`. -/
theorem endpoint_rounding_counterexample :
    Dbl.round (96 / 10) = Dbl.fin (5404319552844595 / 562949953421312) ∧
    Dbl.round (28 / 10) = Dbl.fin (3152519739159347 / 1125899906842624) ∧
    DLine.contains ⟨Dbl.fin 0, Dbl.fin 0, Dbl.round (96 / 10), Dbl.round (28 / 10)⟩
      (Dbl.round (96 / 10)) (Dbl.round (28 / 10)) = some "end" ∧
    ¬ ((0 : ℚ) = (5404319552844595 / 562949953421312) ∧ (0 : ℚ) = (3152519739159347 / 1125899906842624)) ∧
    Real.sqrt (((((3152519739159347 / 1125899906842624) - 0) ^ 2 + ((5404319552844595 / 562949953421312) - 0) ^ 2 : ℚ)) : ℝ) < 10 := by
  refine ⟨by decide!, by decide!, by decide!, by norm_num, ?_⟩
  rw [Real.sqrt_lt' (by norm_num : (0 : ℝ) < 10)]
  norm_num

/-- Claim C17 fails as stated in its second sentence: the line `(0,0)-(10,0)`
is hit as `"start"` at `p = (-8, 4.999999999999999)`; after the move by
`q - p` that a drag to `q = (-6.4, 6.6)` makes, computed in double arithmetic
as `onPointerMove` computes it, `contains(q)` is `null`: the computed
`distance` is exactly `5`. -/
theorem translation_rounding_counterexample :
    DLine.contains ⟨Dbl.fin 0, Dbl.fin 0, Dbl.fin 10, Dbl.fin 0⟩ (Dbl.fin (-8))
      (Dbl.round (4999999999999999 / 1000000000000000)) = some "start" ∧
    DLine.move ⟨Dbl.fin 0, Dbl.fin 0, Dbl.fin 10, Dbl.fin 0⟩
        (Dbl.sub (Dbl.round (-64 / 10)) (Dbl.fin (-8)))
        (Dbl.sub (Dbl.round (66 / 10)) (Dbl.round (4999999999999999 / 1000000000000000)))
      = ⟨Dbl.fin (900719925474099 / 562949953421312),
         Dbl.fin (1801439850948199 / 1125899906842624),
         Dbl.fin (6530219459687219 / 562949953421312),
         Dbl.fin (1801439850948199 / 1125899906842624)⟩ ∧
    DLine.contains
      (DLine.move ⟨Dbl.fin 0, Dbl.fin 0, Dbl.fin 10, Dbl.fin 0⟩
        (Dbl.sub (Dbl.round (-64 / 10)) (Dbl.fin (-8)))
        (Dbl.sub (Dbl.round (66 / 10)) (Dbl.round (4999999999999999 / 1000000000000000))))
      (Dbl.round (-64 / 10)) (Dbl.round (66 / 10)) = none := by
  refine ⟨by decide!, by decide!, by decide!⟩

/-- Claim C18 fails as stated: the line `(0,0)-(10,0)`, hit as `"start"` at
`p = (0,0)`, is dragged through `(0.1, 0)` to `qn = (0.3, 0)`.  In double
arithmetic its end becomes `10.299999999999999`, which is neither the double
`10 + (0.3 - 0) = 10.3` nor that sum taken exactly, and the vector from start
to end becomes `9.999999999999998`, not `10`. -/
theorem drag_rounding_counterexample :
    DLine.contains ⟨Dbl.fin 0, Dbl.fin 0, Dbl.fin 10, Dbl.fin 0⟩ (Dbl.fin 0) (Dbl.fin 0)
      = some "start" ∧
    (DLine.drag ⟨Dbl.fin 0, Dbl.fin 0, Dbl.fin 10, Dbl.fin 0⟩ (Dbl.fin 0, Dbl.fin 0)
      [(Dbl.round (1 / 10), Dbl.fin 0), (Dbl.round (3 / 10), Dbl.fin 0)])
      = (⟨Dbl.round (3 / 10), Dbl.fin 0,
          Dbl.round (10299999999999999 / 1000000000000000), Dbl.fin 0⟩,
         (Dbl.round (3 / 10), Dbl.fin 0)) ∧
    Dbl.round (3 / 10) = Dbl.fin (5404319552844595 / 18014398509481984) ∧
    Dbl.round (10299999999999999 / 1000000000000000)
      = Dbl.fin (5798384520239513 / 562949953421312) ∧
    Dbl.add (Dbl.fin 10) (Dbl.sub (Dbl.round (3 / 10)) (Dbl.fin 0)) = Dbl.round (103 / 10) ∧
    Dbl.round (103 / 10) ≠ Dbl.round (10299999999999999 / 1000000000000000) ∧
    (5798384520239513 / 562949953421312 : ℚ) ≠ 10 + (5404319552844595 / 18014398509481984 - 0) ∧
    Dbl.sub (Dbl.round (10299999999999999 / 1000000000000000)) (Dbl.round (3 / 10))
      = Dbl.round (9999999999999998 / 1000000000000000) ∧
    Dbl.sub (Dbl.fin 10) (Dbl.fin 0) = Dbl.fin 10 ∧
    Dbl.round (9999999999999998 / 1000000000000000) ≠ Dbl.fin 10 ∧
    (5798384520239513 / 562949953421312 - 5404319552844595 / 18014398509481984 : ℚ) ≠ 10 - 0 := by
  refine ⟨by decide!, by decide!, by decide!, by decide!, by decide!, by decide!, by norm_num,
    by decide!, by decide!, by decide!, by norm_num⟩

end LineEditor
